import Mathlib

/-!
Verification of the metadata indexing backends (chained hash table, 2-3 tree,
B+ tree) of the distributed-file-system indexing repository.

Shallow embedding conventions:
* Python strings are compared lexicographically by code point; a Lean String
  wraps a List Char (its data field), and the List Char linear order is that
  lexicographic order, so all filename comparisons are stated on the data
  field (this also keeps every comparison kernel-computable).
* FileMetadata mirrors utils.FileMetadata; the timestamp becomes a Nat
  (it is never compared or otherwise inspected by any backend).
* Python mutation becomes explicit state passing: every operation takes the
  structure and returns the updated structure.
* The defaultdict tag index (identical code in all three backends) becomes
  TagIndex, an insertion-ordered association list.  Indexing into a
  defaultdict creates a fresh empty entry for a missing key (modeled by
  TagIndex.get_item, used by insert), while dict.get with a default does not
  (modeled by TagIndex.get_default, used by search_by_tag).
* Locks are dropped: every public operation holds the primary lock for its
  whole duration, so under the lock discipline each operation is an atomic
  state transformer, which is exactly what the functional embedding encodes.
-/

/-- Mirrors utils.FileMetadata.  Ordering and equality in the source are by
filename only; backends access the other fields only to store them. -/
structure FileMetadata where
  filename : String
  owner : String
  timestamp : Nat
  tags : List String
  permissions : String
  file_size : Nat
  file_id : String
deriving DecidableEq, Repr

/-- Python filename comparison a < b, on code points. -/
abbrev fnLt (a b : String) : Prop := a.data < b.data

/-- Python filename comparison a <= b. -/
abbrev fnLe (a b : String) : Prop := a.data ≤ b.data

/-- Strict filename order on records (FileMetadata.__lt__ compares filenames). -/
abbrev recLt (a b : FileMetadata) : Prop := fnLt a.filename b.filename

/-- Non-strict filename order on records. -/
abbrev recLe (a b : FileMetadata) : Prop := fnLe a.filename b.filename

/-- Lower bound (inclusive): every key routed right of a separator x
satisfies x ≤ key. -/
def lbOk (lo : Option String) (f : String) : Prop := ∀ x ∈ lo, fnLe x f

/-- Upper bound (strict): every key routed left of a separator x
satisfies key < x. -/
def ubOk (hi : Option String) (f : String) : Prop := ∀ x ∈ hi, fnLt f x

/-- A filename lies inside the half-open routing interval given by the
optional bounds. -/
def inBnd (lo hi : Option String) (f : String) : Prop := lbOk lo f ∧ ubOk hi f

/-- Strict lower bound, used for separators and for distinct-key trees. -/
def lbStrict (lo : Option String) (f : String) : Prop := ∀ x ∈ lo, fnLt x f

/-- A filename lies strictly between the optional bounds. -/
def inBndS (lo hi : Option String) (f : String) : Prop := lbStrict lo f ∧ ubOk hi f

/-! ## Tag index

All three backends contain the identical secondary index:
a defaultdict(list) mapping tag -> list of records, plus
  insert:        for tag in metadata.tags: self.tag_index[tag].append(metadata)
  search_by_tag: return self.tag_index.get(tag, []).copy()
-/

/-- Insertion-ordered association list modelling the defaultdict(list)
tag index.  Keys are unique (dict semantics). -/
structure TagIndex where
  entries : List (String × List FileMetadata)
deriving DecidableEq, Repr

/-- dict.get(tag, []): pure lookup with default, does not create an entry. -/
def TagIndex.get_default (ti : TagIndex) (tag : String) : List FileMetadata :=
  match ti.entries.find? (fun e => decide (e.1 = tag)) with
  | some e => e.2
  | none => []

/-- defaultdict.__getitem__: returns the stored list for the tag, creating a
fresh empty entry (at the end of the iteration order) when the tag is absent. -/
def TagIndex.get_item (ti : TagIndex) (tag : String) : List FileMetadata × TagIndex :=
  match ti.entries.find? (fun e => decide (e.1 = tag)) with
  | some e => (e.2, ti)
  | none => ([], ⟨ti.entries ++ [(tag, [])]⟩)

/-- self.tag_index[tag].append(metadata): defaultdict indexing followed by an
in-place append to the returned list. -/
def TagIndex.add_tag (ti : TagIndex) (tag : String) (m : FileMetadata) : TagIndex :=
  let (l, ti2) := ti.get_item tag
  ⟨ti2.entries.map (fun e => if e.1 = tag then (e.1, l ++ [m]) else e)⟩

/-- The tag-update loop of insert: for tag in metadata.tags: tag_index[tag].append(metadata). -/
def TagIndex.add_all (ti : TagIndex) (m : FileMetadata) : TagIndex :=
  m.tags.foldl (fun acc tag => acc.add_tag tag m) ti

/-- The keys currently present in the tag index, in insertion order. -/
def TagIndex.keysOf (ti : TagIndex) : List String :=
  ti.entries.map Prod.fst

/-- The tag index produced by a sequence of inserts (identical for all three
backends, since each insert runs the same tag-update loop). -/
def tag_fold (ms : List FileMetadata) : TagIndex :=
  ms.foldl (fun ti m => ti.add_all m) ⟨[]⟩

/-- The records carrying a given tag, in insertion order, one occurrence per
occurrence of the tag in the record's tag list. -/
def tagList (ms : List FileMetadata) (tag : String) : List FileMetadata :=
  (ms.map (fun m => (m.tags.filter (fun t => decide (t = tag))).map (fun _ => m))).flatten

/-! ## Hash table (src/hashmap.py HashTableIndex)

The Python hash function is parameterised here as an arbitrary
h : String → Nat, and hash(key) % capacity becomes h key % capacity.
load_factor is the default 0.75 used by every caller in the repository;
since every reachable capacity is a power of two, the float comparison
size / capacity > 0.75 is exact and equals 4 * size > 3 * capacity.

_insert_no_lock and _resize are mutually recursive in the source (the rehash
reinserts through _insert_no_lock, which re-checks the load factor).  The
embedding adds an explicit recursion-depth fuel; the public insert uses
fuel 1, and the well-formedness lemmas below prove that on every reachable
state a rehash never re-triggers a resize, so fuel 1 is exact there. -/

structure HashTableIndex where
  capacity : Nat
  size : Nat
  buckets : List (List FileMetadata)
  tag_index : TagIndex
deriving DecidableEq, Repr

/-- self._hash(key) = hash(key) % self.capacity. -/
def hash_idx (h : String → Nat) (cap : Nat) (key : String) : Nat :=
  h key % cap

/-- The duplicate-check loop of _insert_no_lock: replace the first record
with an equal filename (the loop returns right after bucket[i] = metadata). -/
def bucket_replace (m : FileMetadata) : List FileMetadata → List FileMetadata
  | [] => []
  | x :: xs => if x.filename = m.filename then m :: xs else x :: bucket_replace m xs

/-- The body of HashTableIndex._insert_no_lock, with the resize action
(taken when the load factor is exceeded after an append) passed in
explicitly so that the fuelled recursion below is structural. -/
def insert_step (h : String → Nat) (onResize : HashTableIndex → HashTableIndex)
    (t : HashTableIndex) (m : FileMetadata) : HashTableIndex :=
  let i := hash_idx h t.capacity m.filename
  let b := t.buckets.getD i []
  if b.any (fun x => decide (x.filename = m.filename)) then
    -- duplicate found: bucket[i] = metadata; return
    { t with buckets := t.buckets.set i (bucket_replace m b) }
  else
    -- bucket.append(metadata); size += 1
    let t1 : HashTableIndex :=
      { t with buckets := t.buckets.set i (b ++ [m]), size := t.size + 1 }
    -- if size / capacity > load_factor: _resize()
    if 4 * t1.size > 3 * t1.capacity then onResize t1 else t1

/-- HashTableIndex._insert_no_lock with explicit resize-recursion fuel.
_resize doubles the capacity, allocates fresh empty buckets, zeroes size and
reinserts every record of the old buckets (for bucket in old_buckets: for
metadata in bucket: _insert_no_lock(metadata)) through the next fuel level. -/
def insert_no_lock (h : String → Nat) : Nat → HashTableIndex → FileMetadata → HashTableIndex
  | 0 => insert_step h (fun t1 => t1)
  | f + 1 =>
    insert_step h (fun t1 =>
      let t0 : HashTableIndex :=
        { t1 with
          capacity := 2 * t1.capacity
          buckets := List.replicate (2 * t1.capacity) []
          size := 0 }
      t1.buckets.flatten.foldl (insert_no_lock h f) t0)

/-- HashTableIndex.insert: _insert_no_lock followed by the tag-index update. -/
def HashTableIndex.insert (h : String → Nat) (t : HashTableIndex) (m : FileMetadata) :
    HashTableIndex :=
  let t1 := insert_no_lock h 1 t m
  { t1 with tag_index := t1.tag_index.add_all m }

/-- HashTableIndex.search_by_filename: scan the target bucket. -/
def HashTableIndex.search_by_filename (h : String → Nat) (t : HashTableIndex)
    (name : String) : Option FileMetadata :=
  (t.buckets.getD (hash_idx h t.capacity name) []).find? (fun x => decide (x.filename = name))

/-- HashTableIndex.search_by_tag = tag_index.get(tag, []).copy(); under value
semantics the copy is the returned value itself. -/
def HashTableIndex.search_by_tag (t : HashTableIndex) (tag : String) : List FileMetadata :=
  t.tag_index.get_default tag

/-- search_by_tag as an explicit state transformer: the source performs a
single non-mutating dict.get, so the state component is returned unchanged. -/
def HashTableIndex.search_by_tag_run (t : HashTableIndex) (tag : String) :
    List FileMetadata × HashTableIndex :=
  (t.tag_index.get_default tag, t)

/-- HashTableIndex.list_files: concatenate the buckets, then
all_files.sort(key=filename, reverse=(order == 'desc')).  CPython list.sort
is a stable sort; with reverse=True it sorts by the reversed comparison while
keeping equal keys in their original order, which is what a stable merge sort
with the flipped comparator does. -/
def HashTableIndex.list_files (t : HashTableIndex) (order : String) : List FileMetadata :=
  let all := t.buckets.flatten
  if order = "desc" then
    all.mergeSort (fun a b => decide (fnLe b.filename a.filename))
  else
    all.mergeSort (fun a b => decide (fnLe a.filename b.filename))

/-- HashTableIndex.__init__(initial_capacity): empty buckets, size 0. -/
def HashTableIndex.init (cap : Nat) : HashTableIndex :=
  { capacity := cap, size := 0, buckets := List.replicate cap [], tag_index := ⟨[]⟩ }

/-- State reached from HashTableIndex(initial_capacity=cap) by a sequence of inserts. -/
def buildHT (h : String → Nat) (cap : Nat) (ms : List FileMetadata) : HashTableIndex :=
  ms.foldl (fun t m => t.insert h m) (HashTableIndex.init cap)

/-! ## 2-3 tree (src/twoThreeTree.py TwoThreeTree)

A TwoThreeNode persistently holds 1 or 2 keys and 0, 2 or 3 children
(a transient 3-key node is split before it is ever stored), so nodes are
embedded with one constructor per persistent shape: l1/l2 are leaves with one
or two keys, i2/i3 are internal nodes with their keys interleaved between
their children.  The split carrier returned by _split_node is always a node
with one key and two children, embedded as the result constructor
TTRes.up left key right (carrier.keys[0] = key, carrier.children = [left, right]). -/

inductive TTNode where
  | l1 (k : FileMetadata)
  | l2 (k1 k2 : FileMetadata)
  | i2 (c0 : TTNode) (k : FileMetadata) (c1 : TTNode)
  | i3 (c0 : TTNode) (k1 : FileMetadata) (c1 : TTNode) (k2 : FileMetadata) (c2 : TTNode)
deriving DecidableEq, Repr

/-- Result of _insert_helper: either the mutated node (None was returned and
the caller keeps its child), or the split carrier (middle key + two children). -/
inductive TTRes where
  | stay (n : TTNode)
  | up (l : TTNode) (k : FileMetadata) (r : TTNode)
deriving DecidableEq, Repr

/-- _insert_into_node on a leaf: insert in sorted position (first index with
metadata < key, comparing filenames), then split when the node holds 3 keys.
_split_node on a leaf [a, b, c] yields carrier (l1 a) b (l1 c). -/
def tt_insert_leaf : TTNode → FileMetadata → TTRes
  | .l1 k, m =>
    if recLt m k then .stay (.l2 m k) else .stay (.l2 k m)
  | .l2 k1 k2, m =>
    if recLt m k1 then .up (.l1 m) k1 (.l1 k2)
    else if recLt m k2 then .up (.l1 k1) m (.l1 k2)
    else .up (.l1 k1) k2 (.l1 m)
  | n, _ => .stay n

/-- _insert_into_internal on a 1-key node (keys [k], children [c0, c1]) given
the carrier (left, mk, right) from the child at child_index cidx.  The source
inserts mk at the first position with mk < keys[i] (else appends), inserts
right after that position, then overwrites children[child_index] with left. -/
def tt_absorb2 (c0 : TTNode) (k : FileMetadata) (c1 : TTNode)
    (left : TTNode) (mk : FileMetadata) (right : TTNode) (cidx : Nat) : TTRes :=
  if recLt mk k then
    -- keys [mk, k]; children [c0, right, c1] then children[cidx] := left
    match cidx with
    | 0 => .stay (.i3 left mk right k c1)
    | _ => .stay (.i3 c0 mk left k c1)
  else
    -- keys [k, mk]; children [c0, c1, right] then children[cidx] := left
    match cidx with
    | 0 => .stay (.i3 left k c1 mk right)
    | _ => .stay (.i3 c0 k left mk right)

/-- _insert_into_internal on a 2-key node (keys [k1, k2], children
[c0, c1, c2]) given the carrier from the child at child_index cidx; the node
reaches 3 keys and is split by _split_node (children [d0,d1,d2,d3] go
[d0,d1] left, [d2,d3] right, middle key is pushed up). -/
def tt_absorb3 (c0 : TTNode) (k1 : FileMetadata) (c1 : TTNode) (k2 : FileMetadata)
    (c2 : TTNode) (left : TTNode) (mk : FileMetadata) (right : TTNode) (cidx : Nat) : TTRes :=
  if recLt mk k1 then
    -- keys [mk, k1, k2]; children [c0, right, c1, c2] then children[cidx] := left
    match cidx with
    | 0 => .up (.i2 left mk right) k1 (.i2 c1 k2 c2)
    | 1 => .up (.i2 c0 mk left) k1 (.i2 c1 k2 c2)
    | _ => .up (.i2 c0 mk right) k1 (.i2 left k2 c2)
  else if recLt mk k2 then
    -- keys [k1, mk, k2]; children [c0, c1, right, c2] then children[cidx] := left
    match cidx with
    | 0 => .up (.i2 left k1 c1) mk (.i2 right k2 c2)
    | 1 => .up (.i2 c0 k1 left) mk (.i2 right k2 c2)
    | _ => .up (.i2 c0 k1 c1) mk (.i2 left k2 c2)
  else
    -- keys [k1, k2, mk]; children [c0, c1, c2, right] then children[cidx] := left
    match cidx with
    | 0 => .up (.i2 left k1 c1) k2 (.i2 c2 mk right)
    | 1 => .up (.i2 c0 k1 left) k2 (.i2 c2 mk right)
    | _ => .up (.i2 c0 k1 c1) k2 (.i2 left mk right)

/-- TwoThreeTree._insert_helper: recursive descent (child index = first key
with metadata < key, else the last child), absorbing split carriers on the
way back up.  Note there is no equal-filename check anywhere on this path. -/
def tt_insert_helper : TTNode → FileMetadata → TTRes
  | .l1 k, m => tt_insert_leaf (.l1 k) m
  | .l2 k1 k2, m => tt_insert_leaf (.l2 k1 k2) m
  | .i2 c0 k c1, m =>
    if recLt m k then
      match tt_insert_helper c0 m with
      | .stay c0' => .stay (.i2 c0' k c1)
      | .up l mk r => tt_absorb2 c0 k c1 l mk r 0
    else
      match tt_insert_helper c1 m with
      | .stay c1' => .stay (.i2 c0 k c1')
      | .up l mk r => tt_absorb2 c0 k c1 l mk r 1
  | .i3 c0 k1 c1 k2 c2, m =>
    if recLt m k1 then
      match tt_insert_helper c0 m with
      | .stay c0' => .stay (.i3 c0' k1 c1 k2 c2)
      | .up l mk r => tt_absorb3 c0 k1 c1 k2 c2 l mk r 0
    else if recLt m k2 then
      match tt_insert_helper c1 m with
      | .stay c1' => .stay (.i3 c0 k1 c1' k2 c2)
      | .up l mk r => tt_absorb3 c0 k1 c1 k2 c2 l mk r 1
    else
      match tt_insert_helper c2 m with
      | .stay c2' => .stay (.i3 c0 k1 c1 k2 c2')
      | .up l mk r => tt_absorb3 c0 k1 c1 k2 c2 l mk r 2

/-- In-order traversal _inorder_traversal: leaves emit their keys, internal
nodes interleave children and keys. -/
def TTNode.toList : TTNode → List FileMetadata
  | .l1 k => [k]
  | .l2 k1 k2 => [k1, k2]
  | .i2 c0 k c1 => c0.toList ++ k :: c1.toList
  | .i3 c0 k1 c1 k2 c2 => c0.toList ++ k1 :: (c1.toList ++ k2 :: c2.toList)

/-- Root-to-leaf edge count of a 2-3 node, following the rightmost child
(under the balance invariant every root-to-leaf path has this many edges). -/
def TTNode.edgeHeight : TTNode → Nat
  | .l1 _ => 0
  | .l2 _ _ => 0
  | .i2 _ _ c1 => c1.edgeHeight + 1
  | .i3 _ _ _ _ c2 => c2.edgeHeight + 1

structure TwoThreeTree where
  root : Option TTNode
  size : Nat
  height : Nat
  tag_index : TagIndex
deriving DecidableEq, Repr

/-- TwoThreeTree.__init__. -/
def TwoThreeTree.init : TwoThreeTree :=
  { root := none, size := 0, height := 0, tag_index := ⟨[]⟩ }

/-- TwoThreeTree.insert: create the root on first insert (height = 1);
otherwise run _insert_helper, installing a returned carrier as the new root
(height += 1); then size += 1 and the tag-index update — all unconditionally. -/
def TwoThreeTree.insert (t : TwoThreeTree) (m : FileMetadata) : TwoThreeTree :=
  match t.root with
  | none =>
    { t with
      root := some (.l1 m), height := 1, size := t.size + 1
      tag_index := t.tag_index.add_all m }
  | some r =>
    match tt_insert_helper r m with
    | .stay r' =>
      { t with root := some r', size := t.size + 1, tag_index := t.tag_index.add_all m }
    | .up l k rr =>
      { t with
        root := some (.i2 l k rr), height := t.height + 1, size := t.size + 1
        tag_index := t.tag_index.add_all m }

/-- True when the insert of m into t would split the root node (the carrier
returned by _insert_helper reaches the top).  On an empty tree no node
exists, so no node splits. -/
def TwoThreeTree.root_splits (t : TwoThreeTree) (m : FileMetadata) : Bool :=
  match t.root with
  | none => false
  | some r =>
    match tt_insert_helper r m with
    | .stay _ => false
    | .up _ _ _ => true

/-- TwoThreeTree.search_by_tag (identical tag-index code in every backend). -/
def TwoThreeTree.search_by_tag (t : TwoThreeTree) (tag : String) : List FileMetadata :=
  t.tag_index.get_default tag

/-- search_by_tag as an explicit state transformer (single dict.get). -/
def TwoThreeTree.search_by_tag_run (t : TwoThreeTree) (tag : String) :
    List FileMetadata × TwoThreeTree :=
  (t.tag_index.get_default tag, t)

/-- TwoThreeTree.list_files: in-order traversal (empty for root None),
reversed when order == 'desc'. -/
def TwoThreeTree.list_files (t : TwoThreeTree) (order : String) : List FileMetadata :=
  let res := match t.root with
    | none => []
    | some r => r.toList
  if order = "desc" then res.reverse else res

/-- State reached from TwoThreeTree() by a sequence of inserts. -/
def buildTT (ms : List FileMetadata) : TwoThreeTree :=
  ms.foldl (fun t m => t.insert m) TwoThreeTree.init

/-- Search-tree invariant of a 2-3 node within strict routing bounds, for
trees whose stored filenames are pairwise distinct (with distinct keys the
descent — strictly-less goes left, otherwise right — keeps every subtree
strictly between its adjacent separators).  Sequences re-inserting an
existing filename are covered separately: they add duplicate occurrences
(claim C3), which is exactly what breaks the strict order invariant. -/
inductive WfT : Option String → Option String → TTNode → Prop where
  | l1 {lo hi k} : inBndS lo hi k.filename → WfT lo hi (.l1 k)
  | l2 {lo hi k1 k2} : inBndS lo hi k1.filename → inBndS lo hi k2.filename →
      fnLt k1.filename k2.filename → WfT lo hi (.l2 k1 k2)
  | i2 {lo hi c0 k c1} : inBndS lo hi k.filename →
      WfT lo (some k.filename) c0 → WfT (some k.filename) hi c1 →
      WfT lo hi (.i2 c0 k c1)
  | i3 {lo hi c0 k1 c1 k2 c2} : inBndS lo hi k1.filename → inBndS lo hi k2.filename →
      fnLt k1.filename k2.filename →
      WfT lo (some k1.filename) c0 → WfT (some k1.filename) (some k2.filename) c1 →
      WfT (some k2.filename) hi c2 →
      WfT lo hi (.i3 c0 k1 c1 k2 c2)

/-- The insert-result form of the 2-3 search-tree invariant: a kept node
keeps its bounds; a split carrier has its key inside the node's bounds and
its two children on either side of the key. -/
def WfTRes (lo hi : Option String) : TTRes → Prop
  | .stay n => WfT lo hi n
  | .up l k r =>
    WfT lo (some k.filename) l ∧ inBndS lo hi k.filename ∧ WfT (some k.filename) hi r

/-- In-order listing of an insert result (the carrier read as left, key,
right). -/
def TTRes.toList : TTRes → List FileMetadata
  | .stay n => n.toList
  | .up l k r => l.toList ++ k :: r.toList

/-- Weak routing invariant of a 2-3 node, holding even with duplicate
filenames: node keys are non-decreasing, respect the non-strict lower bound,
and every right subtree is bounded below by its separator.  This is what
guarantees that a split carrier climbing out of child i carries a key at
least as large as the separators left of i, so that _insert_into_internal
places it at position i and children[child_index] = left overwrites exactly
the child that split. -/
inductive LbT : Option String → TTNode → Prop where
  | l1 {lo k} : lbOk lo k.filename → LbT lo (.l1 k)
  | l2 {lo k1 k2} : lbOk lo k1.filename → lbOk lo k2.filename →
      fnLe k1.filename k2.filename → LbT lo (.l2 k1 k2)
  | i2 {lo c0 k c1} : lbOk lo k.filename →
      LbT lo c0 → LbT (some k.filename) c1 → LbT lo (.i2 c0 k c1)
  | i3 {lo c0 k1 c1 k2 c2} : lbOk lo k1.filename → lbOk lo k2.filename →
      fnLe k1.filename k2.filename →
      LbT lo c0 → LbT (some k1.filename) c1 → LbT (some k2.filename) c2 →
      LbT lo (.i3 c0 k1 c1 k2 c2)

/-- The insert-result form of the weak routing invariant. -/
def LbTRes (lo : Option String) : TTRes → Prop
  | .stay n => LbT lo n
  | .up l mk r => LbT lo l ∧ lbOk lo mk.filename ∧ LbT (some mk.filename) r

/-- Every root-to-leaf path of the node passes through exactly d nodes. -/
inductive BalT : Nat → TTNode → Prop where
  | l1 {k} : BalT 1 (.l1 k)
  | l2 {k1 k2} : BalT 1 (.l2 k1 k2)
  | i2 {d c0 k c1} : BalT d c0 → BalT d c1 → BalT (d + 1) (.i2 c0 k c1)
  | i3 {d c0 k1 c1 k2 c2} : BalT d c0 → BalT d c1 → BalT d c2 →
      BalT (d + 1) (.i3 c0 k1 c1 k2 c2)

/-- The insert-result form of the 2-3 balance invariant: a kept node keeps
its node-depth, a split carrier has two children of the same node-depth. -/
def BalTRes (d : Nat) : TTRes → Prop
  | .stay n => BalT d n
  | .up l _ r => BalT d l ∧ BalT d r

/-- The in-order listing of the whole tree (empty when the root is None);
list_files('asc') returns exactly this. -/
def TwoThreeTree.inorder (t : TwoThreeTree) : List FileMetadata :=
  match t.root with
  | none => []
  | some r => r.toList

/-! ## B+ tree (src/bPlusTree.py BPlusTree)

The source keeps, in an internal node, keys [k0..kn] and children
[c0..c(n+1)] with len(children) = len(keys) + 1, and routes a filename into
the first child ci with filename < ki (else the last child).  The embedding
stores an internal node as the alternating chain
c0, k0, c1, k1, ..., cn, kn, c(n+1): BEntries.cons k c rest pairs each key
with the child to its left, and the chain ends with the last child
(BEntries.lastC).  Leaves hold the records.

Mutation through parent back-references is restructured as the standard
split-carrier return protocol (the repository spec itself prescribes this
reframing): inserting into a subtree either returns the updated subtree or
a (left, pushed-up key, right) triple that the caller absorbs.  The source
scans parent.keys from the left to place the pushed-up key; under the node
invariant (every key in a child is strictly below that child's right
separator and at least its left separator) the scan lands exactly at the
split child's position, so the embedding splices the promoted pair in place.

list_files walks the linked leaf chain from the leftmost leaf; the split
code (new_leaf.next = leaf.next; leaf.next = new_leaf) keeps that chain
exactly the left-to-right sequence of leaves, so the embedding enumerates
the leaves in tree order. -/

mutual
inductive BNode where
  | leaf (ks : List FileMetadata) : BNode
  | inner (es : BEntries) : BNode
deriving DecidableEq, Repr
inductive BEntries where
  | lastC (c : BNode) : BEntries
  | cons (k : String) (c : BNode) (rest : BEntries) : BEntries
deriving DecidableEq, Repr
end

/-- Number of separator keys of an internal node (= len(node.keys);
the chain holds one more child than keys). -/
def BEntries.sizeE : BEntries → Nat
  | .lastC _ => 0
  | .cons _ _ rest => rest.sizeE + 1

/-- Result of inserting into a subtree: the updated subtree, or the split
result (left node, pushed-up separator, right node). -/
inductive BRes where
  | one (n : BNode)
  | split (l : BNode) (k : String) (r : BNode)
deriving DecidableEq, Repr

/-- BPlusTree._insert_into_leaf: walk the sorted key list; replace on equal
filename (key-preserving update), insert before the first larger filename,
else append. -/
def b_insert_into_leaf (m : FileMetadata) : List FileMetadata → List FileMetadata
  | [] => [m]
  | k :: rest =>
    if m.filename = k.filename then m :: rest
    else if recLt m k then m :: k :: rest
    else k :: b_insert_into_leaf m rest

/-- Split an entry chain at key index i: returns (left chain ending with
child i, key i, right chain).  This embeds keys[:mid] with children[:mid+1]
(left), keys[mid] (pushed up), and keys[mid+1:] with children[mid+1:]
(right). -/
def BEntries.splitAtE : Nat → BEntries → Option (BEntries × String × BEntries)
  | _, .lastC _ => none
  | 0, .cons k c rest => some (.lastC c, k, rest)
  | i + 1, .cons k c rest =>
    match rest.splitAtE i with
    | some (pre, pk, post) => some (.cons k c pre, pk, post)
    | none => none

mutual

/-- Insertion into a subtree: _find_leaf + _insert_into_leaf + the split
logic of _split_leaf / _insert_into_parent / _split_internal, expressed as
the split-carrier protocol.  ord is self.order; a node splits when its key
count reaches ord. -/
def b_insert_aux (ord : Nat) (m : FileMetadata) : BNode → BRes
  | .leaf ks =>
    let ks2 := b_insert_into_leaf m ks
    if ord ≤ ks2.length then
      -- _split_leaf: mid = len // 2; right keys = keys[mid:]; left = keys[:mid];
      -- pushed-up key = right.keys[0].filename
      match ks2.drop (ks2.length / 2) with
      | r0 :: rrest =>
        .split (.leaf (ks2.take (ks2.length / 2))) r0.filename (.leaf (r0 :: rrest))
      | [] => .one (.leaf ks2)
    else .one (.leaf ks2)
  | .inner es =>
    let es2 := b_insert_entries ord m es
    if ord ≤ es2.sizeE then
      -- _split_internal: mid = len // 2; push keys[mid] up, keys[mid] kept in
      -- neither half; children[:mid+1] left, children[mid+1:] right
      match es2.splitAtE (es2.sizeE / 2) with
      | some (pre, pk, post) => .split (.inner pre) pk (.inner post)
      | none => .one (.inner es2)
    else .one (.inner es2)

/-- Descend along an internal node's chain (first separator with
filename < separator, else the last child) and absorb a child split by
splicing (pushed-up key, left) before the old entry, whose child becomes the
right node — the in-place form of _insert_into_parent. -/
def b_insert_entries (ord : Nat) (m : FileMetadata) : BEntries → BEntries
  | .lastC c =>
    match b_insert_aux ord m c with
    | .one c2 => .lastC c2
    | .split l nk r => .cons nk l (.lastC r)
  | .cons k c rest =>
    if fnLt m.filename k then
      match b_insert_aux ord m c with
      | .one c2 => .cons k c2 rest
      | .split l nk r => .cons nk l (.cons k r rest)
    else .cons k c (b_insert_entries ord m rest)

end

mutual

/-- Concatenation of the leaf key lists in left-to-right order — what
list_files('asc') reads off the linked leaf chain. -/
def BNode.toList : BNode → List FileMetadata
  | .leaf ks => ks
  | .inner es => es.toListE

def BEntries.toListE : BEntries → List FileMetadata
  | .lastC c => c.toList
  | .cons _ c rest => c.toList ++ rest.toListE

end

mutual

/-- Root-to-leaf edge count of a B+ node, following the last child (under the
balance invariant every root-to-leaf path has this many edges). -/
def BNode.edgeHeight : BNode → Nat
  | .leaf _ => 0
  | .inner es => es.edgeHeightE + 1

def BEntries.edgeHeightE : BEntries → Nat
  | .lastC c => c.edgeHeight
  | .cons _ _ rest => rest.edgeHeightE

end

structure BPlusTree where
  order : Nat
  root : BNode
  size : Nat
  height : Nat
  tag_index : TagIndex
deriving DecidableEq, Repr

/-- BPlusTree.__init__(order): a single empty leaf as root, height 1, size 0. -/
def BPlusTree.init (ord : Nat) : BPlusTree :=
  { order := ord, root := .leaf [], size := 0, height := 1, tag_index := ⟨[]⟩ }

/-- BPlusTree.insert: insert into the leaf (splits propagate; a split
reaching the root creates a new root and increments height), then
size += 1 unconditionally, then the tag-index update. -/
def BPlusTree.insert (t : BPlusTree) (m : FileMetadata) : BPlusTree :=
  match b_insert_aux t.order m t.root with
  | .one r =>
    { t with root := r, size := t.size + 1, tag_index := t.tag_index.add_all m }
  | .split l k r =>
    { t with
      root := .inner (.cons k l (.lastC r))
      height := t.height + 1
      size := t.size + 1
      tag_index := t.tag_index.add_all m }

/-- True when the insert of m into t splits the root node (creating a new root). -/
def BPlusTree.root_splits (t : BPlusTree) (m : FileMetadata) : Bool :=
  match b_insert_aux t.order m t.root with
  | .one _ => false
  | .split _ _ _ => true

/-- BPlusTree.search_by_tag (identical tag-index code in every backend). -/
def BPlusTree.search_by_tag (t : BPlusTree) (tag : String) : List FileMetadata :=
  t.tag_index.get_default tag

/-- search_by_tag as an explicit state transformer (single dict.get). -/
def BPlusTree.search_by_tag_run (t : BPlusTree) (tag : String) :
    List FileMetadata × BPlusTree :=
  (t.tag_index.get_default tag, t)

/-- BPlusTree.list_files: walk the leaf chain from the leftmost leaf
(ascending), reversed when order == 'desc'. -/
def BPlusTree.list_files (t : BPlusTree) (order : String) : List FileMetadata :=
  let res := t.root.toList
  if order = "desc" then res.reverse else res

/-- State reached from BPlusTree(order=ord) by a sequence of inserts. -/
def buildB (ord : Nat) (ms : List FileMetadata) : BPlusTree :=
  ms.foldl (fun t m => t.insert m) (BPlusTree.init ord)

mutual

/-- Search-tree invariant of a B+ subtree within optional routing bounds:
leaf records are strictly increasing by filename and lie in [lo, hi); the
key count stays below the order; internal chains are bounded by their
separators exactly as _find_leaf routes (strictly-less goes left,
equal-or-greater goes right). -/
def BWf (ord : Nat) : Option String → Option String → BNode → Prop
  | lo, hi, .leaf ks =>
    List.Pairwise recLt ks ∧ (∀ k ∈ ks, inBnd lo hi k.filename) ∧ ks.length < ord
  | lo, hi, .inner es => 1 ≤ es.sizeE ∧ es.sizeE < ord ∧ BWfE ord lo hi es

def BWfE (ord : Nat) : Option String → Option String → BEntries → Prop
  | lo, hi, .lastC c => BWf ord lo hi c
  | lo, hi, .cons k c rest =>
    inBndS lo hi k ∧ BWf ord lo (some k) c ∧ BWfE ord (some k) hi rest

end

/-- The insert-result form of the B+ search-tree invariant. -/
def BWfRes (ord : Nat) (lo hi : Option String) : BRes → Prop
  | .one n => BWf ord lo hi n
  | .split l k r => BWf ord lo (some k) l ∧ inBndS lo hi k ∧ BWf ord (some k) hi r

mutual

/-- Every root-to-leaf path of the B+ subtree passes through exactly d nodes. -/
def BBal : Nat → BNode → Prop
  | 0, _ => False
  | d + 1, .leaf _ => d = 0
  | d + 1, .inner es => BBalE d es

def BBalE : Nat → BEntries → Prop
  | d, .lastC c => BBal d c
  | d, .cons _ c rest => BBal d c ∧ BBalE d rest

end

/-- The insert-result form of the B+ balance invariant. -/
def BBalRes (d : Nat) : BRes → Prop
  | .one n => BBal d n
  | .split l _ r => BBal d l ∧ BBal d r

/-! ## Hash table well-formedness -/

/-- All records stored in the hash table, bucket by bucket. -/
def ht_records (t : HashTableIndex) : List FileMetadata :=
  t.buckets.flatten

/-- The bucket layout produced by rehashing the given records in order into
cap fresh buckets. -/
def rehash_buckets (h : String → Nat) (cap : Nat) (recs : List FileMetadata) :
    List (List FileMetadata) :=
  (List.range cap).map (fun i => recs.filter (fun m => decide (hash_idx h cap m.filename = i)))

/-- Well-formedness of a reachable hash-table state: the bucket array has
length capacity (at least 2), size counts the stored records, stored
filenames are pairwise distinct, every record sits in the bucket its hash
selects, and the load factor is not exceeded. -/
structure HTWf (h : String → Nat) (t : HashTableIndex) : Prop where
  blen : t.buckets.length = t.capacity
  cap2 : 2 ≤ t.capacity
  size_eq : t.size = t.buckets.flatten.length
  nodups : (t.buckets.flatten.map (fun m => m.filename)).Nodup
  placed : ∀ i b, t.buckets[i]? = some b → ∀ m ∈ b, hash_idx h t.capacity m.filename = i
  load : 4 * t.size ≤ 3 * t.capacity

/-- A concrete stand-in for Python's hash() on strings (any function works
for the parameterised lemmas; concrete runs use the code-point sum). -/
def hSum (s : String) : Nat :=
  s.data.foldl (fun a c => a + c.toNat) 0

/-- A concrete record builder for running the embedded operations on
particular inputs (fixed uninteresting payload fields). -/
def mkRec (name : String) (tags : List String) : FileMetadata :=
  { filename := name, owner := "alice", timestamp := 0, tags := tags,
    permissions := "rw", file_size := 1, file_id := "0" }

/-! # Lemmas

## Tag index -/

/-- Generic foldl invariant preservation. -/
theorem foldl_preserve {α β : Type} {f : α → β → α} {P : α → Prop}
    (step : ∀ a b, P a → P (f a b)) :
    ∀ (l : List β) (a : α), P a → P (l.foldl f a) := by
  intro l
  induction l with
  | nil => intro a ha; exact ha
  | cons b l ih => intro a ha; exact ih _ (step a b ha)

theorem find?_update_value (l : List (String × List FileMetadata)) (tag : String)
    (v : List FileMetadata) :
    ((l.map (fun e => if e.1 = tag then (e.1, v) else e)).find?
        (fun e => decide (e.1 = tag)))
      = (l.find? (fun e => decide (e.1 = tag))).map (fun e => (e.1, v)) := by
  induction l with
  | nil => simp
  | cons a l ih =>
    by_cases h : a.1 = tag
    · simp [List.find?_cons, h]
    · simp [List.find?_cons, h, ih]

theorem find?_update_other (l : List (String × List FileMetadata)) (tag tag2 : String)
    (v : List FileMetadata) (hne : tag2 ≠ tag) :
    ((l.map (fun e => if e.1 = tag then (e.1, v) else e)).find?
        (fun e => decide (e.1 = tag2)))
      = l.find? (fun e => decide (e.1 = tag2)) := by
  have hne2 : ¬ tag = tag2 := fun hh => hne hh.symm
  have hne3 : ¬ tag2 = tag := hne
  induction l with
  | nil => simp
  | cons a l ih =>
    by_cases h : a.1 = tag
    · have h2 : ¬ a.1 = tag2 := by rw [h]; exact hne2
      simp [List.find?_cons, h, h2, ih, hne2, hne3]
    · by_cases h2 : a.1 = tag2
      · simp [List.find?_cons, h, h2, hne2, hne3]
      · simp [List.find?_cons, h, h2, ih]

theorem map_id_of_no_match (l : List (String × List FileMetadata)) (tag : String)
    (v : List FileMetadata) (hnone : ∀ e ∈ l, ¬ e.1 = tag) :
    l.map (fun e => if e.1 = tag then (e.1, v) else e) = l := by
  induction l with
  | nil => rfl
  | cons a l ih =>
    have ha : ¬ a.1 = tag := hnone a (List.mem_cons_self a l)
    simp only [List.map_cons, if_neg ha]
    rw [ih (fun e he => hnone e (List.mem_cons_of_mem a he))]

/-- Appending a record under a tag extends exactly that tag's list. -/
theorem get_default_add_tag_same (ti : TagIndex) (tag : String) (m : FileMetadata) :
    (ti.add_tag tag m).get_default tag = ti.get_default tag ++ [m] := by
  unfold TagIndex.add_tag TagIndex.get_item TagIndex.get_default
  cases hf : ti.entries.find? (fun e => decide (e.1 = tag)) with
  | some e =>
    simp only [hf]
    rw [find?_update_value, hf]
    simp
  | none =>
    have hnone : ∀ x ∈ ti.entries, ¬ x.1 = tag := by
      intro x hx
      have := List.find?_eq_none.mp hf x hx
      simpa using this
    simp only [hf]
    rw [List.map_append, map_id_of_no_match _ _ _ hnone]
    rw [List.find?_append, hf]
    simp

/-- Appending a record under a tag leaves every other tag's list unchanged. -/
theorem get_default_add_tag_other (ti : TagIndex) (tag tag2 : String) (m : FileMetadata)
    (hne : tag2 ≠ tag) :
    (ti.add_tag tag m).get_default tag2 = ti.get_default tag2 := by
  unfold TagIndex.add_tag TagIndex.get_item TagIndex.get_default
  cases hf : ti.entries.find? (fun e => decide (e.1 = tag)) with
  | some e =>
    simp only [hf, find?_update_other _ _ _ _ hne]
  | none =>
    simp only [hf]
    rw [List.map_append, List.find?_append]
    rw [find?_update_other _ _ _ _ hne]
    cases hg : ti.entries.find? (fun e => decide (e.1 = tag2)) with
    | some e2 => simp
    | none =>
      have hne2 : ¬ tag = tag2 := fun hh => hne hh.symm
      simp [hne2]

/-- Key membership after add_tag: exactly the old keys plus the added tag. -/
theorem keysOf_add_tag (ti : TagIndex) (tag : String) (m : FileMetadata) (tag2 : String) :
    (tag2 ∈ (ti.add_tag tag m).keysOf ↔ tag2 ∈ ti.keysOf ∨ tag2 = tag) := by
  unfold TagIndex.add_tag TagIndex.get_item TagIndex.keysOf
  cases hf : ti.entries.find? (fun e => decide (e.1 = tag)) with
  | some e =>
    have hmem : tag ∈ ti.entries.map Prod.fst := by
      have hin := List.find?_some hf
      have hmem2 := List.mem_of_find?_eq_some hf
      refine List.mem_map.mpr ⟨e, hmem2, ?_⟩
      simpa using hin
    simp only [hf, List.map_map]
    constructor
    · intro hx
      obtain ⟨a, ha, hax⟩ := List.mem_map.mp hx
      by_cases hc : a.1 = tag
      · left
        refine List.mem_map.mpr ⟨a, ha, ?_⟩
        simp only [Function.comp_apply, if_pos hc] at hax
        exact hax
      · left
        refine List.mem_map.mpr ⟨a, ha, ?_⟩
        simp only [Function.comp_apply, if_neg hc] at hax
        exact hax
    · intro hx
      rcases hx with hx | hx
      · obtain ⟨a, ha, hax⟩ := List.mem_map.mp hx
        refine List.mem_map.mpr ⟨a, ha, ?_⟩
        by_cases hc : a.1 = tag
        · simp only [Function.comp_apply, if_pos hc]
          rw [← hax]
        · simp only [Function.comp_apply, if_neg hc]
          exact hax
      · subst hx
        obtain ⟨a, ha, hax⟩ := List.mem_map.mp hmem
        refine List.mem_map.mpr ⟨a, ha, ?_⟩
        by_cases hc : a.1 = tag2
        · simp only [Function.comp_apply, if_pos hc]
          exact hax
        · simp only [Function.comp_apply, if_neg hc]
          exact hax
  | none =>
    have hnone : ∀ x ∈ ti.entries, ¬ x.1 = tag := by
      intro x hx
      have := List.find?_eq_none.mp hf x hx
      simpa using this
    simp only [hf]
    rw [List.map_append, map_id_of_no_match _ _ _ hnone]
    simp [or_comm]

/-- Effect of the whole tag-update loop of one insert on one tag's list:
the record is appended once per occurrence of the tag in its tag list. -/
theorem get_default_add_all (ti : TagIndex) (m : FileMetadata) (tag : String) :
    (ti.add_all m).get_default tag
      = ti.get_default tag ++ (m.tags.filter (fun t => decide (t = tag))).map (fun _ => m) := by
  unfold TagIndex.add_all
  induction m.tags generalizing ti with
  | nil => simp
  | cons t ts ih =>
    simp only [List.foldl_cons]
    rw [ih, List.filter_cons]
    by_cases h : t = tag
    · subst h
      rw [get_default_add_tag_same]
      simp
    · rw [get_default_add_tag_other _ _ _ _ (fun hh => h hh.symm)]
      simp [h]

/-- Keys after the tag-update loop of one insert: old keys plus the record's tags. -/
theorem keysOf_add_all (ti : TagIndex) (m : FileMetadata) (tag : String) :
    (tag ∈ (ti.add_all m).keysOf ↔ tag ∈ ti.keysOf ∨ tag ∈ m.tags) := by
  unfold TagIndex.add_all
  induction m.tags generalizing ti with
  | nil => simp
  | cons t ts ih =>
    simp only [List.foldl_cons]
    rw [ih]
    rw [keysOf_add_tag]
    constructor
    · rintro ((hx | hx) | hx)
      · exact Or.inl hx
      · exact Or.inr (by simp [hx])
      · exact Or.inr (by simp [hx])
    · rintro (hx | hx)
      · exact Or.inl (Or.inl hx)
      · rcases List.mem_cons.mp hx with hx | hx
        · exact Or.inl (Or.inr hx)
        · exact Or.inr hx

/-- The tag index built by a sequence of inserts maps each tag to exactly
the records inserted with that tag, in insertion order. -/
theorem get_default_tag_fold (ms : List FileMetadata) (tag : String) :
    (tag_fold ms).get_default tag = tagList ms tag := by
  unfold tag_fold
  suffices h : ∀ (ti : TagIndex),
      (ms.foldl (fun ti m => ti.add_all m) ti).get_default tag
        = ti.get_default tag ++ tagList ms tag by
    have := h ⟨[]⟩
    rw [this]
    simp [TagIndex.get_default]
  induction ms with
  | nil => intro ti; simp [tagList]
  | cons m ms ih =>
    intro ti
    simp only [List.foldl_cons]
    rw [ih, get_default_add_all]
    simp [tagList, List.append_assoc]

/-- The keys of the built tag index are exactly the tags attached to some
inserted record — no query ever creates an entry. -/
theorem keysOf_tag_fold (ms : List FileMetadata) (tag : String) :
    (tag ∈ (tag_fold ms).keysOf ↔ ∃ m ∈ ms, tag ∈ m.tags) := by
  unfold tag_fold
  suffices h : ∀ (ti : TagIndex),
      (tag ∈ (ms.foldl (fun ti m => ti.add_all m) ti).keysOf
        ↔ tag ∈ ti.keysOf ∨ ∃ m ∈ ms, tag ∈ m.tags) by
    rw [h ⟨[]⟩]
    simp [TagIndex.keysOf]
  induction ms with
  | nil => intro ti; simp
  | cons m ms ih =>
    intro ti
    simp only [List.foldl_cons]
    rw [ih, keysOf_add_all]
    constructor
    · rintro ((hx | hx) | ⟨m2, hm2, ht2⟩)
      · exact Or.inl hx
      · exact Or.inr ⟨m, List.mem_cons_self m ms, hx⟩
      · exact Or.inr ⟨m2, List.mem_cons_of_mem m hm2, ht2⟩
    · rintro (hx | ⟨m2, hm2, ht2⟩)
      · exact Or.inl (Or.inl hx)
      · rcases List.mem_cons.mp hm2 with hh | hh
        · subst hh; exact Or.inl (Or.inr ht2)
        · exact Or.inr ⟨m2, hh, ht2⟩

/-- A record inserted with a tag occurs in that tag's list. -/
theorem mem_tagList_of_mem (ms : List FileMetadata) (m : FileMetadata) (tag : String)
    (hm : m ∈ ms) (ht : tag ∈ m.tags) : m ∈ tagList ms tag := by
  unfold tagList
  rw [List.mem_flatten]
  refine ⟨(m.tags.filter (fun t => decide (t = tag))).map (fun _ => m), ?_, ?_⟩
  · exact List.mem_map.mpr ⟨m, hm, rfl⟩
  · rw [List.mem_map]
    refine ⟨tag, ?_, rfl⟩
    rw [List.mem_filter]
    exact ⟨ht, by simp⟩

/-- A tag carried by no inserted record has an empty list. -/
theorem tagList_eq_nil (ms : List FileMetadata) (tag : String)
    (habs : ∀ m ∈ ms, tag ∉ m.tags) : tagList ms tag = [] := by
  unfold tagList
  rw [List.flatten_eq_nil_iff]
  intro l hl
  obtain ⟨m, hm, rfl⟩ := List.mem_map.mp hl
  have : m.tags.filter (fun t => decide (t = tag)) = [] := by
    rw [List.filter_eq_nil_iff]
    intro t ht
    simp only [decide_eq_true_eq]
    intro hh
    subst hh
    exact habs m hm ht
  rw [this]
  rfl

/-! ## Backend tag-index bookkeeping -/

/-- _insert_no_lock (and the resize it may trigger) never touches the tag index. -/
theorem insert_no_lock_tag_index (h : String → Nat) :
    ∀ (fuel : Nat) (t : HashTableIndex) (m : FileMetadata),
      (insert_no_lock h fuel t m).tag_index = t.tag_index := by
  intro fuel
  induction fuel with
  | zero =>
    intro t m
    unfold insert_no_lock insert_step
    dsimp only
    split
    · rfl
    · split <;> rfl
  | succ f ih =>
    intro t m
    unfold insert_no_lock insert_step
    dsimp only
    split
    · rfl
    · split
      · have hfold : ∀ (L : List FileMetadata) (t0 : HashTableIndex),
            (L.foldl (insert_no_lock h f) t0).tag_index = t0.tag_index := by
          intro L
          induction L with
          | nil => intro t0; rfl
          | cons x L ihL => intro t0; rw [List.foldl_cons, ihL, ih]
        exact hfold _ _
      · rfl

theorem ht_insert_tag_index (h : String → Nat) (t : HashTableIndex) (m : FileMetadata) :
    (t.insert h m).tag_index = t.tag_index.add_all m := by
  unfold HashTableIndex.insert
  dsimp only
  rw [insert_no_lock_tag_index]

theorem tt_insert_tag_index (t : TwoThreeTree) (m : FileMetadata) :
    (t.insert m).tag_index = t.tag_index.add_all m := by
  unfold TwoThreeTree.insert
  cases t.root with
  | none => rfl
  | some r =>
    dsimp only
    cases tt_insert_helper r m <;> rfl

theorem b_insert_tag_index (t : BPlusTree) (m : FileMetadata) :
    (t.insert m).tag_index = t.tag_index.add_all m := by
  unfold BPlusTree.insert
  cases b_insert_aux t.order m t.root <;> rfl

theorem buildHT_tag_index (h : String → Nat) (cap : Nat) (ms : List FileMetadata) :
    (buildHT h cap ms).tag_index = tag_fold ms := by
  unfold buildHT tag_fold
  suffices hgen : ∀ (t : HashTableIndex),
      (ms.foldl (fun t m => t.insert h m) t).tag_index
        = ms.foldl (fun ti m => ti.add_all m) t.tag_index by
    exact hgen _
  induction ms with
  | nil => intro t; rfl
  | cons m ms ih =>
    intro t
    simp only [List.foldl_cons]
    rw [ih, ht_insert_tag_index]

theorem buildTT_tag_index (ms : List FileMetadata) :
    (buildTT ms).tag_index = tag_fold ms := by
  unfold buildTT tag_fold
  suffices hgen : ∀ (t : TwoThreeTree),
      (ms.foldl (fun t m => t.insert m) t).tag_index
        = ms.foldl (fun ti m => ti.add_all m) t.tag_index by
    exact hgen _
  induction ms with
  | nil => intro t; rfl
  | cons m ms ih =>
    intro t
    simp only [List.foldl_cons]
    rw [ih, tt_insert_tag_index]

theorem buildB_tag_index (ord : Nat) (ms : List FileMetadata) :
    (buildB ord ms).tag_index = tag_fold ms := by
  unfold buildB tag_fold
  suffices hgen : ∀ (t : BPlusTree),
      (ms.foldl (fun t m => t.insert m) t).tag_index
        = ms.foldl (fun ti m => ti.add_all m) t.tag_index by
    exact hgen _
  induction ms with
  | nil => intro t; rfl
  | cons m ms ih =>
    intro t
    simp only [List.foldl_cons]
    rw [ih, b_insert_tag_index]

/-! ## Order and bound helpers -/

theorem fname_ne_data {a b : String} (h : a ≠ b) : a.data ≠ b.data := by
  intro hd
  apply h
  cases a; cases b
  exact congrArg String.mk hd

theorem fname_eq_of_data {a b : String} (h : a.data = b.data) : a = b := by
  cases a; cases b
  exact congrArg String.mk h

theorem ubOk_none {f : String} : ubOk none f := by
  intro x hx
  cases hx

theorem lbStrict_none {f : String} : lbStrict none f := by
  intro x hx
  cases hx

theorem lbOk_none {f : String} : lbOk none f := by
  intro x hx
  cases hx

theorem inBndS_none {f : String} : inBndS none none f := ⟨lbStrict_none, ubOk_none⟩

theorem ubOk_some {f g : String} (h : fnLt f g) : ubOk (some g) f := by
  intro x hx
  simp only [Option.mem_def, Option.some_inj] at hx
  rw [← hx]
  exact h

theorem lbStrict_some {f g : String} (h : fnLt g f) : lbStrict (some g) f := by
  intro x hx
  simp only [Option.mem_def, Option.some_inj] at hx
  rw [← hx]
  exact h

theorem lbOk_some {f g : String} (h : fnLe g f) : lbOk (some g) f := by
  intro x hx
  simp only [Option.mem_def, Option.some_inj] at hx
  rw [← hx]
  exact h

theorem ubOk_some_elim {f g : String} (h : ubOk (some g) f) : fnLt f g :=
  h g rfl

theorem lbStrict_some_elim {f g : String} (h : lbStrict (some g) f) : fnLt g f :=
  h g rfl

theorem lbOk_some_elim {f g : String} (h : lbOk (some g) f) : fnLe g f :=
  h g rfl

/-- Weaken an upper bound along a strictly smaller filename. -/
theorem ubOk_of_lt {hi : Option String} {f g : String} (hfg : fnLt f g) (hg : ubOk hi g) :
    ubOk hi f := fun x hx => lt_trans hfg (hg x hx)

/-- Weaken a strict lower bound along a strictly larger filename. -/
theorem lbStrict_of_lt {lo : Option String} {f g : String} (hgf : fnLt g f)
    (hg : lbStrict lo g) : lbStrict lo f := fun x hx => lt_trans (hg x hx) hgf

theorem lbOk_of_lt {lo : Option String} {f g : String} (hgf : fnLt g f)
    (hg : lbOk lo g) : lbOk lo f := fun x hx => le_trans (hg x hx) (le_of_lt hgf)

theorem lbOk_of_le {lo : Option String} {f g : String} (hgf : fnLe g f)
    (hg : lbOk lo g) : lbOk lo f := fun x hx => le_trans (hg x hx) hgf

/-- Linear-order trichotomy step used at every comparison site: if m is not
strictly below k and the filenames differ, then k is strictly below m. -/
theorem fnLt_of_not_lt_of_ne {mf kf : String} (h1 : ¬ fnLt mf kf)
    (h2 : kf.data ≠ mf.data) : fnLt kf mf :=
  lt_of_le_of_ne (not_lt.mp h1) h2

/-! ## 2-3 tree: routing invariant and permutation -/

/-- One 2-3 insert step preserves the weak routing invariant and adds
exactly the inserted record to the in-order listing — also for duplicate
filenames.  (Off the routing invariant the source would overwrite a sibling
child; the invariant shows those paths are never taken.) -/
theorem tt_insert_lb_perm (m : FileMetadata) :
    ∀ (n : TTNode) (lo : Option String), LbT lo n → lbOk lo m.filename →
      LbTRes lo (tt_insert_helper n m)
        ∧ (tt_insert_helper n m).toList.Perm (m :: n.toList) := by
  intro n
  induction n with
  | l1 k =>
    intro lo hlb hm
    cases hlb with
    | l1 hk =>
    simp only [tt_insert_helper, tt_insert_leaf]
    by_cases h1 : recLt m k
    · rw [if_pos h1]
      refine ⟨LbT.l2 hm hk (le_of_lt h1), ?_⟩
      rw [List.perm_iff_count]
      intro a
      simp only [TTRes.toList, TTNode.toList, List.count_append, List.count_cons,
        List.count_nil, beq_iff_eq]
      all_goals omega
    · rw [if_neg h1]
      refine ⟨LbT.l2 hk hm (not_lt.mp h1), ?_⟩
      rw [List.perm_iff_count]
      intro a
      simp only [TTRes.toList, TTNode.toList, List.count_append, List.count_cons,
        List.count_nil, beq_iff_eq]
      all_goals omega
  | l2 k1 k2 =>
    intro lo hlb hm
    cases hlb with
    | l2 hk1 hk2 h12 =>
    simp only [tt_insert_helper, tt_insert_leaf]
    by_cases h1 : recLt m k1
    · rw [if_pos h1]
      refine ⟨⟨LbT.l1 hm, hk1, LbT.l1 (lbOk_some h12)⟩, ?_⟩
      rw [List.perm_iff_count]
      intro a
      simp only [TTRes.toList, TTNode.toList, List.count_append, List.count_cons,
        List.count_nil, beq_iff_eq]
      all_goals omega
    · rw [if_neg h1]
      by_cases h2 : recLt m k2
      · rw [if_pos h2]
        refine ⟨⟨LbT.l1 hk1, hm, LbT.l1 (lbOk_some (le_of_lt h2))⟩, ?_⟩
        rw [List.perm_iff_count]
        intro a
        simp only [TTRes.toList, TTNode.toList, List.count_append, List.count_cons,
          List.count_nil, beq_iff_eq]
        all_goals omega
      · rw [if_neg h2]
        refine ⟨⟨LbT.l1 hk1, hk2, LbT.l1 (lbOk_some (not_lt.mp h2))⟩, ?_⟩
        rw [List.perm_iff_count]
        intro a
        simp only [TTRes.toList, TTNode.toList, List.count_append, List.count_cons,
          List.count_nil, beq_iff_eq]
        all_goals omega
  | i2 c0 k c1 ih0 ih1 =>
    intro lo hlb hm
    cases hlb with
    | i2 hk h0 h1 =>
    simp only [tt_insert_helper]
    by_cases hmlt : recLt m k
    · rw [if_pos hmlt]
      obtain ⟨hres0, hperm0⟩ := ih0 lo h0 hm
      cases hres : tt_insert_helper c0 m with
      | stay c0' =>
        rw [hres] at hres0 hperm0
        simp only [LbTRes] at hres0
        simp only [TTRes.toList] at hperm0
        refine ⟨LbT.i2 hk hres0 h1, ?_⟩
        rw [List.perm_iff_count]
        intro a
        have hc := hperm0.count_eq a
        simp only [TTRes.toList, TTNode.toList, List.count_append, List.count_cons,
          List.count_nil, beq_iff_eq] at hc ⊢
        all_goals omega
      | up l mk2 r =>
        rw [hres] at hres0 hperm0
        simp only [LbTRes] at hres0
        simp only [TTRes.toList] at hperm0
        obtain ⟨hll, hmkb, hlr⟩ := hres0
        simp only [tt_absorb2]
        by_cases hc1 : recLt mk2 k
        · rw [if_pos hc1]
          refine ⟨LbT.i3 hmkb hk (le_of_lt hc1) hll hlr h1, ?_⟩
          rw [List.perm_iff_count]
          intro a
          have hc := hperm0.count_eq a
          simp only [TTRes.toList, TTNode.toList, List.count_append, List.count_cons,
            List.count_nil, beq_iff_eq] at hc ⊢
          all_goals omega
        · rw [if_neg hc1]
          refine ⟨LbT.i3 hk hmkb (not_lt.mp hc1) hll h1 hlr, ?_⟩
          rw [List.perm_iff_count]
          intro a
          have hc := hperm0.count_eq a
          simp only [TTRes.toList, TTNode.toList, List.count_append, List.count_cons,
            List.count_nil, beq_iff_eq] at hc ⊢
          all_goals omega
    · rw [if_neg hmlt]
      have hm1 : lbOk (some k.filename) m.filename := lbOk_some (not_lt.mp hmlt)
      obtain ⟨hres1, hperm1⟩ := ih1 (some k.filename) h1 hm1
      cases hres : tt_insert_helper c1 m with
      | stay c1' =>
        rw [hres] at hres1 hperm1
        simp only [LbTRes] at hres1
        simp only [TTRes.toList] at hperm1
        refine ⟨LbT.i2 hk h0 hres1, ?_⟩
        rw [List.perm_iff_count]
        intro a
        have hc := hperm1.count_eq a
        simp only [TTRes.toList, TTNode.toList, List.count_append, List.count_cons,
          List.count_nil, beq_iff_eq] at hc ⊢
        all_goals omega
      | up l mk2 r =>
        rw [hres] at hres1 hperm1
        simp only [LbTRes] at hres1
        simp only [TTRes.toList] at hperm1
        obtain ⟨hll, hmkb, hlr⟩ := hres1
        have hkm : fnLe k.filename mk2.filename := lbOk_some_elim hmkb
        have hnc : ¬ recLt mk2 k := not_lt.mpr hkm
        simp only [tt_absorb2]
        rw [if_neg hnc]
        refine ⟨LbT.i3 hk (lbOk_of_le hkm hk) hkm h0 hll hlr, ?_⟩
        rw [List.perm_iff_count]
        intro a
        have hc := hperm1.count_eq a
        simp only [TTRes.toList, TTNode.toList, List.count_append, List.count_cons,
          List.count_nil, beq_iff_eq] at hc ⊢
        all_goals omega
  | i3 c0 k1 c1 k2 c2 ih0 ih1 ih2 =>
    intro lo hlb hm
    cases hlb with
    | i3 hk1 hk2 h12 h0 h1 h2 =>
    simp only [tt_insert_helper]
    by_cases hm1 : recLt m k1
    · rw [if_pos hm1]
      obtain ⟨hres0, hperm0⟩ := ih0 lo h0 hm
      cases hres : tt_insert_helper c0 m with
      | stay c0' =>
        rw [hres] at hres0 hperm0
        simp only [LbTRes] at hres0
        simp only [TTRes.toList] at hperm0
        refine ⟨LbT.i3 hk1 hk2 h12 hres0 h1 h2, ?_⟩
        rw [List.perm_iff_count]
        intro a
        have hc := hperm0.count_eq a
        simp only [TTRes.toList, TTNode.toList, List.count_append, List.count_cons,
          List.count_nil, beq_iff_eq] at hc ⊢
        all_goals omega
      | up l mk2 r =>
        rw [hres] at hres0 hperm0
        simp only [LbTRes] at hres0
        simp only [TTRes.toList] at hperm0
        obtain ⟨hll, hmkb, hlr⟩ := hres0
        simp only [tt_absorb3]
        by_cases hc1 : recLt mk2 k1
        · rw [if_pos hc1]
          refine ⟨⟨LbT.i2 hmkb hll hlr, hk1, LbT.i2 (lbOk_some h12) h1 h2⟩, ?_⟩
          rw [List.perm_iff_count]
          intro a
          have hc := hperm0.count_eq a
          simp only [TTRes.toList, TTNode.toList, List.count_append, List.count_cons,
            List.count_nil, beq_iff_eq] at hc ⊢
          all_goals omega
        · rw [if_neg hc1]
          by_cases hc2 : recLt mk2 k2
          · rw [if_pos hc2]
            refine ⟨⟨LbT.i2 hk1 hll h1, hmkb,
              LbT.i2 (lbOk_some (le_of_lt hc2)) hlr h2⟩, ?_⟩
            rw [List.perm_iff_count]
            intro a
            have hc := hperm0.count_eq a
            simp only [TTRes.toList, TTNode.toList, List.count_append, List.count_cons,
              List.count_nil, beq_iff_eq] at hc ⊢
            all_goals omega
          · rw [if_neg hc2]
            refine ⟨⟨LbT.i2 hk1 hll h1, hk2,
              LbT.i2 (lbOk_some (not_lt.mp hc2)) h2 hlr⟩, ?_⟩
            rw [List.perm_iff_count]
            intro a
            have hc := hperm0.count_eq a
            simp only [TTRes.toList, TTNode.toList, List.count_append, List.count_cons,
              List.count_nil, beq_iff_eq] at hc ⊢
            all_goals omega
    · rw [if_neg hm1]
      by_cases hm2 : recLt m k2
      · rw [if_pos hm2]
        have hmlb : lbOk (some k1.filename) m.filename := lbOk_some (not_lt.mp hm1)
        obtain ⟨hres1, hperm1⟩ := ih1 (some k1.filename) h1 hmlb
        cases hres : tt_insert_helper c1 m with
        | stay c1' =>
          rw [hres] at hres1 hperm1
          simp only [LbTRes] at hres1
          simp only [TTRes.toList] at hperm1
          refine ⟨LbT.i3 hk1 hk2 h12 h0 hres1 h2, ?_⟩
          rw [List.perm_iff_count]
          intro a
          have hc := hperm1.count_eq a
          simp only [TTRes.toList, TTNode.toList, List.count_append, List.count_cons,
            List.count_nil, beq_iff_eq] at hc ⊢
          all_goals omega
        | up l mk2 r =>
          rw [hres] at hres1 hperm1
          simp only [LbTRes] at hres1
          simp only [TTRes.toList] at hperm1
          obtain ⟨hll, hmkb, hlr⟩ := hres1
          have hk1mk : fnLe k1.filename mk2.filename := lbOk_some_elim hmkb
          have hnc1 : ¬ recLt mk2 k1 := not_lt.mpr hk1mk
          simp only [tt_absorb3]
          rw [if_neg hnc1]
          by_cases hc2 : recLt mk2 k2
          · rw [if_pos hc2]
            refine ⟨⟨LbT.i2 hk1 h0 hll, lbOk_of_le hk1mk hk1,
              LbT.i2 (lbOk_some (le_of_lt hc2)) hlr h2⟩, ?_⟩
            rw [List.perm_iff_count]
            intro a
            have hc := hperm1.count_eq a
            simp only [TTRes.toList, TTNode.toList, List.count_append, List.count_cons,
              List.count_nil, beq_iff_eq] at hc ⊢
            all_goals omega
          · rw [if_neg hc2]
            refine ⟨⟨LbT.i2 hk1 h0 hll, hk2,
              LbT.i2 (lbOk_some (not_lt.mp hc2)) h2 hlr⟩, ?_⟩
            rw [List.perm_iff_count]
            intro a
            have hc := hperm1.count_eq a
            simp only [TTRes.toList, TTNode.toList, List.count_append, List.count_cons,
              List.count_nil, beq_iff_eq] at hc ⊢
            all_goals omega
      · rw [if_neg hm2]
        have hmlb : lbOk (some k2.filename) m.filename := lbOk_some (not_lt.mp hm2)
        obtain ⟨hres2, hperm2⟩ := ih2 (some k2.filename) h2 hmlb
        cases hres : tt_insert_helper c2 m with
        | stay c2' =>
          rw [hres] at hres2 hperm2
          simp only [LbTRes] at hres2
          simp only [TTRes.toList] at hperm2
          refine ⟨LbT.i3 hk1 hk2 h12 h0 h1 hres2, ?_⟩
          rw [List.perm_iff_count]
          intro a
          have hc := hperm2.count_eq a
          simp only [TTRes.toList, TTNode.toList, List.count_append, List.count_cons,
            List.count_nil, beq_iff_eq] at hc ⊢
          all_goals omega
        | up l mk2 r =>
          rw [hres] at hres2 hperm2
          simp only [LbTRes] at hres2
          simp only [TTRes.toList] at hperm2
          obtain ⟨hll, hmkb, hlr⟩ := hres2
          have hk2mk : fnLe k2.filename mk2.filename := lbOk_some_elim hmkb
          have hnc2 : ¬ recLt mk2 k2 := not_lt.mpr hk2mk
          have hnc1 : ¬ recLt mk2 k1 := not_lt.mpr (le_trans h12 hk2mk)
          simp only [tt_absorb3]
          rw [if_neg hnc1, if_neg hnc2]
          refine ⟨⟨LbT.i2 hk1 h0 h1, hk2, LbT.i2 (lbOk_some hk2mk) hll hlr⟩, ?_⟩
          rw [List.perm_iff_count]
          intro a
          have hc := hperm2.count_eq a
          simp only [TTRes.toList, TTNode.toList, List.count_append, List.count_cons,
            List.count_nil, beq_iff_eq] at hc ⊢
          all_goals omega

/-! ## 2-3 tree: balance -/

/-- One 2-3 insert step keeps every root-to-leaf node count intact, except
that a split carrier offers two subtrees of the old node count (the caller
either absorbs them at the same level or grows the tree at the root). -/
theorem tt_insert_bal (m : FileMetadata) :
    ∀ (n : TTNode) (d : Nat), BalT d n → BalTRes d (tt_insert_helper n m) := by
  intro n
  induction n with
  | l1 k =>
    intro d hb
    cases hb
    simp only [tt_insert_helper, tt_insert_leaf]
    split_ifs with h1
    · exact BalT.l2
    · exact BalT.l2
  | l2 k1 k2 =>
    intro d hb
    cases hb
    simp only [tt_insert_helper, tt_insert_leaf]
    split_ifs with h1 h2
    · exact ⟨BalT.l1, BalT.l1⟩
    · exact ⟨BalT.l1, BalT.l1⟩
    · exact ⟨BalT.l1, BalT.l1⟩
  | i2 c0 k c1 ih0 ih1 =>
    intro d hb
    cases hb with
    | i2 hb0 hb1 =>
    simp only [tt_insert_helper]
    split_ifs with hmlt
    · have hres0 := ih0 _ hb0
      cases hres : tt_insert_helper c0 m with
      | stay c0' =>
        rw [hres] at hres0
        simp only [BalTRes] at hres0 ⊢
        exact BalT.i2 hres0 hb1
      | up l mk2 r =>
        rw [hres] at hres0
        simp only [BalTRes] at hres0
        obtain ⟨hbl, hbr⟩ := hres0
        simp only [tt_absorb2]
        split_ifs with hc1
        · exact BalT.i3 hbl hbr hb1
        · exact BalT.i3 hbl hb1 hbr
    · have hres1 := ih1 _ hb1
      cases hres : tt_insert_helper c1 m with
      | stay c1' =>
        rw [hres] at hres1
        simp only [BalTRes] at hres1 ⊢
        exact BalT.i2 hb0 hres1
      | up l mk2 r =>
        rw [hres] at hres1
        simp only [BalTRes] at hres1
        obtain ⟨hbl, hbr⟩ := hres1
        simp only [tt_absorb2]
        split_ifs with hc1
        · exact BalT.i3 hb0 hbl hb1
        · exact BalT.i3 hb0 hbl hbr
  | i3 c0 k1 c1 k2 c2 ih0 ih1 ih2 =>
    intro d hb
    cases hb with
    | i3 hb0 hb1 hb2 =>
    simp only [tt_insert_helper]
    split_ifs with hm1 hm2
    · have hres0 := ih0 _ hb0
      cases hres : tt_insert_helper c0 m with
      | stay c0' =>
        rw [hres] at hres0
        simp only [BalTRes] at hres0 ⊢
        exact BalT.i3 hres0 hb1 hb2
      | up l mk2 r =>
        rw [hres] at hres0
        simp only [BalTRes] at hres0
        obtain ⟨hbl, hbr⟩ := hres0
        simp only [tt_absorb3]
        split_ifs with hc1 hc2
        · exact ⟨BalT.i2 hbl hbr, BalT.i2 hb1 hb2⟩
        · exact ⟨BalT.i2 hbl hb1, BalT.i2 hbr hb2⟩
        · exact ⟨BalT.i2 hbl hb1, BalT.i2 hb2 hbr⟩
    · have hres1 := ih1 _ hb1
      cases hres : tt_insert_helper c1 m with
      | stay c1' =>
        rw [hres] at hres1
        simp only [BalTRes] at hres1 ⊢
        exact BalT.i3 hb0 hres1 hb2
      | up l mk2 r =>
        rw [hres] at hres1
        simp only [BalTRes] at hres1
        obtain ⟨hbl, hbr⟩ := hres1
        simp only [tt_absorb3]
        split_ifs with hc1 hc2
        · exact ⟨BalT.i2 hb0 hbl, BalT.i2 hb1 hb2⟩
        · exact ⟨BalT.i2 hb0 hbl, BalT.i2 hbr hb2⟩
        · exact ⟨BalT.i2 hb0 hbl, BalT.i2 hb2 hbr⟩
    · have hres2 := ih2 _ hb2
      cases hres : tt_insert_helper c2 m with
      | stay c2' =>
        rw [hres] at hres2
        simp only [BalTRes] at hres2 ⊢
        exact BalT.i3 hb0 hb1 hres2
      | up l mk2 r =>
        rw [hres] at hres2
        simp only [BalTRes] at hres2
        obtain ⟨hbl, hbr⟩ := hres2
        simp only [tt_absorb3]
        split_ifs with hc1 hc2
        · exact ⟨BalT.i2 hb0 hbr, BalT.i2 hbl hb2⟩
        · exact ⟨BalT.i2 hb0 hb1, BalT.i2 hbl hb2⟩
        · exact ⟨BalT.i2 hb0 hb1, BalT.i2 hbl hbr⟩

/-! ## 2-3 tree: strict search-tree invariant (distinct filenames) -/

/-- One 2-3 insert step preserves the strict search-tree invariant, provided
the inserted filename differs from every stored filename (no deduplication
happens on this backend, so re-inserting an existing filename is exactly
what breaks strictness — see the C3 and C4 theorems). -/
theorem tt_insert_wf (m : FileMetadata) :
    ∀ (n : TTNode) (lo hi : Option String), WfT lo hi n → inBndS lo hi m.filename →
      (∀ x ∈ n.toList, x.filename ≠ m.filename) →
      WfTRes lo hi (tt_insert_helper n m) := by
  intro n
  induction n with
  | l1 k =>
    intro lo hi hwf hm hfresh
    cases hwf with
    | l1 hk =>
    have hne : k.filename.data ≠ m.filename.data :=
      fname_ne_data (hfresh k (by simp [TTNode.toList]))
    simp only [tt_insert_helper, tt_insert_leaf]
    by_cases h1 : recLt m k
    · rw [if_pos h1]
      exact WfT.l2 hm hk h1
    · rw [if_neg h1]
      exact WfT.l2 hk hm (fnLt_of_not_lt_of_ne h1 hne)
  | l2 k1 k2 =>
    intro lo hi hwf hm hfresh
    cases hwf with
    | l2 hk1 hk2 h12 =>
    have hne1 : k1.filename.data ≠ m.filename.data :=
      fname_ne_data (hfresh k1 (by simp [TTNode.toList]))
    have hne2 : k2.filename.data ≠ m.filename.data :=
      fname_ne_data (hfresh k2 (by simp [TTNode.toList]))
    simp only [tt_insert_helper, tt_insert_leaf]
    by_cases h1 : recLt m k1
    · rw [if_pos h1]
      exact ⟨WfT.l1 ⟨hm.1, ubOk_some h1⟩, hk1, WfT.l1 ⟨lbStrict_some h12, hk2.2⟩⟩
    · rw [if_neg h1]
      have h1' : fnLt k1.filename m.filename := fnLt_of_not_lt_of_ne h1 hne1
      by_cases h2 : recLt m k2
      · rw [if_pos h2]
        exact ⟨WfT.l1 ⟨hk1.1, ubOk_some h1'⟩, hm, WfT.l1 ⟨lbStrict_some h2, hk2.2⟩⟩
      · rw [if_neg h2]
        have h2' : fnLt k2.filename m.filename := fnLt_of_not_lt_of_ne h2 hne2
        exact ⟨WfT.l1 ⟨hk1.1, ubOk_some h12⟩, hk2, WfT.l1 ⟨lbStrict_some h2', hm.2⟩⟩
  | i2 c0 k c1 ih0 ih1 =>
    intro lo hi hwf hm hfresh
    cases hwf with
    | i2 hk h0 h1 =>
    have hne : k.filename.data ≠ m.filename.data :=
      fname_ne_data (hfresh k (by simp [TTNode.toList]))
    have hfresh0 : ∀ x ∈ c0.toList, x.filename ≠ m.filename := by
      intro x hx
      exact hfresh x (by simp [TTNode.toList, hx])
    have hfresh1 : ∀ x ∈ c1.toList, x.filename ≠ m.filename := by
      intro x hx
      exact hfresh x (by simp [TTNode.toList, hx])
    simp only [tt_insert_helper]
    by_cases hmlt : recLt m k
    · rw [if_pos hmlt]
      have hres0 := ih0 lo (some k.filename) h0 ⟨hm.1, ubOk_some hmlt⟩ hfresh0
      cases hres : tt_insert_helper c0 m with
      | stay c0' =>
        rw [hres] at hres0
        simp only [WfTRes] at hres0 ⊢
        exact WfT.i2 hk hres0 h1
      | up l mk2 r =>
        rw [hres] at hres0
        simp only [WfTRes] at hres0
        obtain ⟨hwl, hmkb, hwr⟩ := hres0
        have hmk_lt : fnLt mk2.filename k.filename := ubOk_some_elim hmkb.2
        simp only [tt_absorb2]
        rw [if_pos hmk_lt]
        exact WfT.i3 ⟨hmkb.1, ubOk_of_lt hmk_lt hk.2⟩ hk hmk_lt hwl hwr h1
    · rw [if_neg hmlt]
      have hkm : fnLt k.filename m.filename := fnLt_of_not_lt_of_ne hmlt hne
      have hres1 := ih1 (some k.filename) hi h1 ⟨lbStrict_some hkm, hm.2⟩ hfresh1
      cases hres : tt_insert_helper c1 m with
      | stay c1' =>
        rw [hres] at hres1
        simp only [WfTRes] at hres1 ⊢
        exact WfT.i2 hk h0 hres1
      | up l mk2 r =>
        rw [hres] at hres1
        simp only [WfTRes] at hres1
        obtain ⟨hwl, hmkb, hwr⟩ := hres1
        have hk_lt_mk : fnLt k.filename mk2.filename := lbStrict_some_elim hmkb.1
        have hnc : ¬ recLt mk2 k := not_lt.mpr (le_of_lt hk_lt_mk)
        simp only [tt_absorb2]
        rw [if_neg hnc]
        exact WfT.i3 hk ⟨lbStrict_of_lt hk_lt_mk hk.1, hmkb.2⟩ hk_lt_mk h0 hwl hwr
  | i3 c0 k1 c1 k2 c2 ih0 ih1 ih2 =>
    intro lo hi hwf hm hfresh
    cases hwf with
    | i3 hk1 hk2 h12 h0 h1 h2 =>
    have hne1 : k1.filename.data ≠ m.filename.data :=
      fname_ne_data (hfresh k1 (by simp [TTNode.toList]))
    have hne2 : k2.filename.data ≠ m.filename.data :=
      fname_ne_data (hfresh k2 (by simp [TTNode.toList]))
    have hfresh0 : ∀ x ∈ c0.toList, x.filename ≠ m.filename := by
      intro x hx
      exact hfresh x (by simp [TTNode.toList, hx])
    have hfresh1 : ∀ x ∈ c1.toList, x.filename ≠ m.filename := by
      intro x hx
      exact hfresh x (by simp [TTNode.toList, hx])
    have hfresh2 : ∀ x ∈ c2.toList, x.filename ≠ m.filename := by
      intro x hx
      exact hfresh x (by simp [TTNode.toList, hx])
    simp only [tt_insert_helper]
    by_cases hm1 : recLt m k1
    · rw [if_pos hm1]
      have hres0 := ih0 lo (some k1.filename) h0 ⟨hm.1, ubOk_some hm1⟩ hfresh0
      cases hres : tt_insert_helper c0 m with
      | stay c0' =>
        rw [hres] at hres0
        simp only [WfTRes] at hres0 ⊢
        exact WfT.i3 hk1 hk2 h12 hres0 h1 h2
      | up l mk2 r =>
        rw [hres] at hres0
        simp only [WfTRes] at hres0
        obtain ⟨hwl, hmkb, hwr⟩ := hres0
        have hmk_lt : fnLt mk2.filename k1.filename := ubOk_some_elim hmkb.2
        simp only [tt_absorb3]
        rw [if_pos hmk_lt]
        refine ⟨WfT.i2 ⟨hmkb.1, ubOk_some hmk_lt⟩ hwl hwr, hk1, ?_⟩
        exact WfT.i2 ⟨lbStrict_some h12, hk2.2⟩ h1 h2
    · rw [if_neg hm1]
      have hk1m : fnLt k1.filename m.filename := fnLt_of_not_lt_of_ne hm1 hne1
      by_cases hm2 : recLt m k2
      · rw [if_pos hm2]
        have hres1 := ih1 (some k1.filename) (some k2.filename) h1
          ⟨lbStrict_some hk1m, ubOk_some hm2⟩ hfresh1
        cases hres : tt_insert_helper c1 m with
        | stay c1' =>
          rw [hres] at hres1
          simp only [WfTRes] at hres1 ⊢
          exact WfT.i3 hk1 hk2 h12 h0 hres1 h2
        | up l mk2 r =>
          rw [hres] at hres1
          simp only [WfTRes] at hres1
          obtain ⟨hwl, hmkb, hwr⟩ := hres1
          have hlt1 : fnLt k1.filename mk2.filename := lbStrict_some_elim hmkb.1
          have hlt2 : fnLt mk2.filename k2.filename := ubOk_some_elim hmkb.2
          have hnc1 : ¬ recLt mk2 k1 := not_lt.mpr (le_of_lt hlt1)
          simp only [tt_absorb3]
          rw [if_neg hnc1, if_pos hlt2]
          refine ⟨WfT.i2 ⟨hk1.1, ubOk_some hlt1⟩ h0 hwl,
            ⟨lbStrict_of_lt hlt1 hk1.1, ubOk_of_lt hlt2 hk2.2⟩, ?_⟩
          exact WfT.i2 ⟨lbStrict_some hlt2, hk2.2⟩ hwr h2
      · rw [if_neg hm2]
        have hk2m : fnLt k2.filename m.filename := fnLt_of_not_lt_of_ne hm2 hne2
        have hres2 := ih2 (some k2.filename) hi h2 ⟨lbStrict_some hk2m, hm.2⟩ hfresh2
        cases hres : tt_insert_helper c2 m with
        | stay c2' =>
          rw [hres] at hres2
          simp only [WfTRes] at hres2 ⊢
          exact WfT.i3 hk1 hk2 h12 h0 h1 hres2
        | up l mk2 r =>
          rw [hres] at hres2
          simp only [WfTRes] at hres2
          obtain ⟨hwl, hmkb, hwr⟩ := hres2
          have hlt2 : fnLt k2.filename mk2.filename := lbStrict_some_elim hmkb.1
          have hnc2 : ¬ recLt mk2 k2 := not_lt.mpr (le_of_lt hlt2)
          have hnc1 : ¬ recLt mk2 k1 := not_lt.mpr (le_of_lt (lt_trans h12 hlt2))
          simp only [tt_absorb3]
          rw [if_neg hnc1, if_neg hnc2]
          refine ⟨WfT.i2 ⟨hk1.1, ubOk_some h12⟩ h0 h1, hk2, ?_⟩
          exact WfT.i2 ⟨lbStrict_some hlt2, hmkb.2⟩ hwl hwr

/-- Joining two strictly sorted runs around a middle key. -/
theorem pairwise_join3 {A B : List FileMetadata} {k : FileMetadata}
    (hA : List.Pairwise recLt A) (hB : List.Pairwise recLt B)
    (hAk : ∀ x ∈ A, recLt x k) (hkB : ∀ y ∈ B, recLt k y) :
    List.Pairwise recLt (A ++ k :: B) := by
  rw [List.pairwise_append]
  refine ⟨hA, ?_, ?_⟩
  · rw [List.pairwise_cons]
    exact ⟨hkB, hB⟩
  · intro x hx y hy
    rcases List.mem_cons.mp hy with rfl | hy
    · exact hAk x hx
    · exact lt_trans (hAk x hx) (hkB y hy)

/-- A 2-3 node satisfying the strict search-tree invariant lists its records
strictly increasing by filename, all within the bounds. -/
theorem wfT_sorted : ∀ {lo hi : Option String} {n : TTNode}, WfT lo hi n →
    List.Pairwise recLt n.toList ∧ ∀ x ∈ n.toList, inBndS lo hi x.filename := by
  intro lo hi n hwf
  induction hwf with
  | l1 hk =>
    constructor
    · simp [TTNode.toList]
    · intro x hx
      simp only [TTNode.toList, List.mem_singleton] at hx
      rw [hx]
      exact hk
  | l2 hk1 hk2 h12 =>
    constructor
    · simp [TTNode.toList, h12]
    · intro x hx
      simp only [TTNode.toList, List.mem_cons, List.not_mem_nil, or_false] at hx
      rcases hx with rfl | rfl
      · exact hk1
      · exact hk2
  | i2 hk h0 h1 ih0 ih1 =>
    constructor
    · refine pairwise_join3 ih0.1 ih1.1 ?_ ?_
      · intro x hx
        exact ubOk_some_elim (ih0.2 x hx).2
      · intro y hy
        exact lbStrict_some_elim (ih1.2 y hy).1
    · intro x hx
      simp only [TTNode.toList, List.mem_append, List.mem_cons] at hx
      rcases hx with hx | rfl | hx
      · exact ⟨(ih0.2 x hx).1, ubOk_of_lt (ubOk_some_elim (ih0.2 x hx).2) hk.2⟩
      · exact hk
      · exact ⟨lbStrict_of_lt (lbStrict_some_elim (ih1.2 x hx).1) hk.1, (ih1.2 x hx).2⟩
  | i3 hk1 hk2 h12 h0 h1 h2 ih0 ih1 ih2 =>
    have hmid : List.Pairwise recLt (TTNode.toList _ ++ _ :: TTNode.toList _) :=
      pairwise_join3 ih1.1 ih2.1
        (fun x hx => ubOk_some_elim (ih1.2 x hx).2)
        (fun y hy => lbStrict_some_elim (ih2.2 y hy).1)
    constructor
    · refine pairwise_join3 ih0.1 hmid ?_ ?_
      · intro x hx
        exact ubOk_some_elim (ih0.2 x hx).2
      · intro y hy
        rcases List.mem_append.mp hy with hy | hy
        · exact lbStrict_some_elim (ih1.2 y hy).1
        · rcases List.mem_cons.mp hy with rfl | hy
          · exact h12
          · exact lt_trans h12 (lbStrict_some_elim (ih2.2 y hy).1)
    · intro x hx
      simp only [TTNode.toList, List.mem_append, List.mem_cons] at hx
      rcases hx with hx | rfl | hx | rfl | hx
      · exact ⟨(ih0.2 x hx).1,
          ubOk_of_lt (ubOk_some_elim (ih0.2 x hx).2) hk1.2⟩
      · exact hk1
      · exact ⟨lbStrict_of_lt (lbStrict_some_elim (ih1.2 x hx).1) hk1.1,
          ubOk_of_lt (ubOk_some_elim (ih1.2 x hx).2) hk2.2⟩
      · exact hk2
      · exact ⟨lbStrict_of_lt (lbStrict_some_elim (ih2.2 x hx).1) hk2.1,
          (ih2.2 x hx).2⟩

/-! ## 2-3 tree: build-level invariant -/

/-- Every state reached by a sequence of inserts satisfies: size counts the
inserts, the in-order listing is a permutation of the inserted records (with
duplicates), and the tree is balanced with the height counter equal to the
root-to-leaf node count (0 for the empty tree). -/
theorem buildTT_invariant (ms : List FileMetadata) :
    (buildTT ms).size = ms.length
    ∧ (buildTT ms).inorder.Perm ms
    ∧ (match (buildTT ms).root with
       | none => (buildTT ms).height = 0 ∧ ms = []
       | some r => LbT none r ∧ BalT (buildTT ms).height r) := by
  induction ms using List.reverseRecOn with
  | nil =>
    refine ⟨rfl, List.Perm.refl _, ?_⟩
    simp [buildTT, TwoThreeTree.init]
  | append_singleton ms m ih =>
    obtain ⟨ihsize, ihperm, ihroot⟩ := ih
    have hbuild : buildTT (ms ++ [m]) = (buildTT ms).insert m := by
      simp [buildTT, List.foldl_append]
    rw [hbuild]
    unfold TwoThreeTree.insert
    cases hroot : (buildTT ms).root with
    | none =>
      rw [hroot] at ihroot
      obtain ⟨hh, hempty⟩ := ihroot
      subst hempty
      dsimp only
      refine ⟨by simpa using ihsize, ?_, ?_⟩
      · simp [TwoThreeTree.inorder, TTNode.toList]
      · exact ⟨LbT.l1 lbOk_none, BalT.l1⟩
    | some r =>
      rw [hroot] at ihroot
      obtain ⟨hlb, hbal⟩ := ihroot
      have hinorder : (buildTT ms).inorder = r.toList := by
        unfold TwoThreeTree.inorder
        rw [hroot]
      rw [hinorder] at ihperm
      obtain ⟨hres, hperm⟩ := tt_insert_lb_perm m r none hlb lbOk_none
      have hbalres := tt_insert_bal m r _ hbal
      cases hcase : tt_insert_helper r m with
      | stay r2 =>
        rw [hcase] at hres hperm hbalres
        simp only [LbTRes] at hres
        simp only [BalTRes] at hbalres
        simp only [TTRes.toList] at hperm
        dsimp only
        rw [hcase]
        dsimp only
        refine ⟨by simp [ihsize], ?_, ⟨hres, hbalres⟩⟩
        show r2.toList.Perm (ms ++ [m])
        exact hperm.trans ((ihperm.cons m).trans (List.perm_append_singleton m ms).symm)
      | up l k rr =>
        rw [hcase] at hres hperm hbalres
        simp only [LbTRes] at hres
        simp only [BalTRes] at hbalres
        simp only [TTRes.toList] at hperm
        obtain ⟨hll, hlk, hlr⟩ := hres
        obtain ⟨hbl, hbr⟩ := hbalres
        dsimp only
        rw [hcase]
        dsimp only
        refine ⟨by simp [ihsize], ?_, ?_⟩
        · show (TTNode.i2 l k rr).toList.Perm (ms ++ [m])
          simp only [TTNode.toList]
          exact hperm.trans ((ihperm.cons m).trans (List.perm_append_singleton m ms).symm)
        · exact ⟨LbT.i2 hlk hll hlr, BalT.i2 hbl hbr⟩

/-- When the inserted filenames are pairwise distinct, every reachable 2-3
tree satisfies the strict search-tree invariant. -/
theorem buildTT_wf (ms : List FileMetadata)
    (hnd : (ms.map (fun x => x.filename)).Nodup) :
    match (buildTT ms).root with
    | none => True
    | some r => WfT none none r := by
  induction ms using List.reverseRecOn with
  | nil => simp [buildTT, TwoThreeTree.init]
  | append_singleton ms m ih =>
    rw [List.map_append, List.nodup_append] at hnd
    obtain ⟨hnd1, _, hdisj⟩ := hnd
    have hfreshname : m.filename ∉ ms.map (fun x => x.filename) := by
      intro hmem
      exact hdisj hmem (by simp)
    have hbuild : buildTT (ms ++ [m]) = (buildTT ms).insert m := by
      simp [buildTT, List.foldl_append]
    rw [hbuild]
    unfold TwoThreeTree.insert
    specialize ih hnd1
    obtain ⟨-, ihperm, -⟩ := buildTT_invariant ms
    cases hroot : (buildTT ms).root with
    | none =>
      dsimp only
      exact WfT.l1 inBndS_none
    | some r =>
      rw [hroot] at ih
      have hperm : r.toList.Perm ms := by
        have : (buildTT ms).inorder = r.toList := by
          unfold TwoThreeTree.inorder
          rw [hroot]
        rwa [this] at ihperm
      have hfresh : ∀ x ∈ r.toList, x.filename ≠ m.filename := by
        intro x hx heq
        apply hfreshname
        rw [← heq]
        exact List.mem_map.mpr ⟨x, hperm.mem_iff.mp hx, rfl⟩
      have hres := tt_insert_wf m r none none ih inBndS_none hfresh
      cases hcase : tt_insert_helper r m with
      | stay r2 =>
        rw [hcase] at hres
        simp only [WfTRes] at hres
        dsimp only
        rw [hcase]
        exact hres
      | up l k rr =>
        rw [hcase] at hres
        simp only [WfTRes] at hres
        obtain ⟨hwl, hkb, hwr⟩ := hres
        dsimp only
        rw [hcase]
        exact WfT.i2 hkb hwl hwr

/-! ## B+ tree: leaf insertion -/

theorem mem_b_insert_into_leaf {m x : FileMetadata} :
    ∀ {ks : List FileMetadata}, x ∈ b_insert_into_leaf m ks → x ∈ ks ∨ x = m := by
  intro ks
  induction ks with
  | nil =>
    intro hx
    simp only [b_insert_into_leaf, List.mem_singleton] at hx
    exact Or.inr hx
  | cons k rest ih =>
    intro hx
    simp only [b_insert_into_leaf] at hx
    split_ifs at hx with h1 h2
    · rcases List.mem_cons.mp hx with rfl | hx
      · exact Or.inr rfl
      · exact Or.inl (List.mem_cons_of_mem k hx)
    · rcases List.mem_cons.mp hx with rfl | hx
      · exact Or.inr rfl
      · exact Or.inl hx
    · rcases List.mem_cons.mp hx with hxk | hx
      · rw [hxk]
        exact Or.inl (List.mem_cons_self _ _)
      · rcases ih hx with hx | hx
        · exact Or.inl (List.mem_cons_of_mem k hx)
        · exact Or.inr hx

/-- _insert_into_leaf keeps the key list strictly sorted and inside its
bounds, and grows it by at most one key (by none on a replacement). -/
theorem b_insert_into_leaf_wf {m : FileMetadata} {lo hi : Option String} :
    ∀ {ks : List FileMetadata}, List.Pairwise recLt ks →
      (∀ k ∈ ks, inBnd lo hi k.filename) → inBnd lo hi m.filename →
      List.Pairwise recLt (b_insert_into_leaf m ks)
        ∧ (∀ k ∈ b_insert_into_leaf m ks, inBnd lo hi k.filename)
        ∧ ks.length ≤ (b_insert_into_leaf m ks).length
        ∧ (b_insert_into_leaf m ks).length ≤ ks.length + 1 := by
  intro ks
  induction ks with
  | nil =>
    intro _ _ hm
    refine ⟨by simp [b_insert_into_leaf], ?_, by simp [b_insert_into_leaf], by simp [b_insert_into_leaf]⟩
    intro k hk
    simp only [b_insert_into_leaf, List.mem_singleton] at hk
    rw [hk]
    exact hm
  | cons k rest ih =>
    intro hs hb hm
    have hks : ∀ y ∈ rest, recLt k y := (List.pairwise_cons.mp hs).1
    have hrest : List.Pairwise recLt rest := (List.pairwise_cons.mp hs).2
    have hbrest : ∀ y ∈ rest, inBnd lo hi y.filename :=
      fun y hy => hb y (List.mem_cons_of_mem k hy)
    have hbk : inBnd lo hi k.filename := hb k (List.mem_cons_self k rest)
    simp only [b_insert_into_leaf]
    split_ifs with h1 h2
    · -- replace: m :: rest
      refine ⟨?_, ?_, by simp, by simp⟩
      · rw [List.pairwise_cons]
        refine ⟨?_, hrest⟩
        intro y hy
        show fnLt m.filename y.filename
        rw [h1]
        exact hks y hy
      · intro x hx
        rcases List.mem_cons.mp hx with rfl | hx
        · exact hm
        · exact hbrest x hx
    · -- insert before: m :: k :: rest
      refine ⟨?_, ?_, by simp, by simp⟩
      · rw [List.pairwise_cons]
        refine ⟨?_, hs⟩
        intro y hy
        rcases List.mem_cons.mp hy with rfl | hy
        · exact h2
        · exact lt_trans h2 (hks y hy)
      · intro x hx
        rcases List.mem_cons.mp hx with rfl | hx
        · exact hm
        · exact hb x hx
    · -- recurse: k :: b_insert_into_leaf m rest
      have hkm : fnLt k.filename m.filename :=
        fnLt_of_not_lt_of_ne h2 (fun hd => h1 (fname_eq_of_data hd.symm))
      obtain ⟨ihs, ihb, ihlen1, ihlen2⟩ := ih hrest hbrest hm
      refine ⟨?_, ?_, by simpa using ihlen1, by simpa using ihlen2⟩
      · rw [List.pairwise_cons]
        refine ⟨?_, ihs⟩
        intro y hy
        rcases mem_b_insert_into_leaf hy with hy | rfl
        · exact hks y hy
        · exact hkm
      · intro x hx
        rcases List.mem_cons.mp hx with rfl | hx
        · exact hbk
        · exact ihb x hx

/-! ## B+ tree: splitting an internal chain -/

/-- Splitting a well-formed entry chain at a key index yields two
well-formed halves around the extracted separator. -/
theorem splitAtE_wf (ord : Nat) :
    ∀ (es : BEntries) (i : Nat) (lo hi : Option String), BWfE ord lo hi es → i < es.sizeE →
      ∃ pre pk post, es.splitAtE i = some (pre, pk, post)
        ∧ BWfE ord lo (some pk) pre ∧ inBndS lo hi pk ∧ BWfE ord (some pk) hi post
        ∧ pre.sizeE = i ∧ post.sizeE + i + 1 = es.sizeE
  | .lastC c, i, lo, hi, hwf, hilt => by
    simp [BEntries.sizeE] at hilt
  | .cons k c rest, i, lo, hi, hwf, hilt => by
    simp only [BWfE] at hwf
    obtain ⟨hkb, hcw, hrest⟩ := hwf
    cases i with
    | zero =>
      refine ⟨.lastC c, k, rest, rfl, ?_, hkb, hrest, rfl, ?_⟩
      · simpa only [BWfE] using hcw
      · simp [BEntries.sizeE]
    | succ j =>
      have hjlt : j < rest.sizeE := by
        simp only [BEntries.sizeE] at hilt
        omega
      obtain ⟨pre, pk, post, heq, hpre, hpkb, hpost, hsz1, hsz2⟩ :=
        splitAtE_wf ord rest j (some k) hi hrest hjlt
      refine ⟨.cons k c pre, pk, post, ?_, ?_, ?_, hpost, ?_, ?_⟩
      · simp [BEntries.splitAtE, heq]
      · exact ⟨⟨hkb.1, ubOk_some (lbStrict_some_elim hpkb.1)⟩, hcw, hpre⟩
      · exact ⟨lbStrict_of_lt (lbStrict_some_elim hpkb.1) hkb.1, hpkb.2⟩
      · simp [BEntries.sizeE, hsz1]
      · simp only [BEntries.sizeE]
        omega

/-- Splitting a balanced entry chain yields two balanced halves. -/
theorem splitAtE_bal :
    ∀ (es : BEntries) (i d : Nat) (pre : BEntries) (pk : String) (post : BEntries),
      BBalE d es → es.splitAtE i = some (pre, pk, post) → BBalE d pre ∧ BBalE d post
  | .lastC c, i, d, pre, pk, post, hbal, heq => by
    simp [BEntries.splitAtE] at heq
  | .cons k c rest, i, d, pre, pk, post, hbal, heq => by
    simp only [BBalE] at hbal
    obtain ⟨hbc, hbrest⟩ := hbal
    cases i with
    | zero =>
      simp only [BEntries.splitAtE, Option.some_inj, Prod.mk.injEq] at heq
      obtain ⟨rfl, rfl, rfl⟩ := heq
      exact ⟨hbc, hbrest⟩
    | succ j =>
      simp only [BEntries.splitAtE] at heq
      cases hrec : rest.splitAtE j with
      | none =>
        rw [hrec] at heq
        simp at heq
      | some trip =>
        obtain ⟨pre2, pk2, post2⟩ := trip
        rw [hrec] at heq
        simp only [Option.some_inj, Prod.mk.injEq] at heq
        obtain ⟨rfl, rfl, rfl⟩ := heq
        obtain ⟨hp, hq⟩ := splitAtE_bal rest j d pre2 pk2 post2 hbrest hrec
        exact ⟨⟨hbc, hp⟩, hq⟩

/-! ## B+ tree: insertion preserves the search-tree invariant -/

mutual

theorem b_insert_aux_wf (ord : Nat) (m : FileMetadata) (hord : 3 ≤ ord) :
    ∀ (n : BNode) (lo hi : Option String), BWf ord lo hi n → inBnd lo hi m.filename →
      BWfRes ord lo hi (b_insert_aux ord m n)
  | .leaf ks, lo, hi, hwf, hm => by
    simp only [BWf] at hwf
    obtain ⟨hsort, hbnd, hlen⟩ := hwf
    obtain ⟨hsort2, hbnd2, hlen1, hlen2⟩ := b_insert_into_leaf_wf hsort hbnd hm
    simp only [b_insert_aux]
    by_cases hsplit : ord ≤ (b_insert_into_leaf m ks).length
    · rw [if_pos hsplit]
      have hlen_eq : (b_insert_into_leaf m ks).length = ord := by omega
      have hmid_le : (b_insert_into_leaf m ks).length / 2 ≤ (b_insert_into_leaf m ks).length := by
        omega
      have hmid_lt : (b_insert_into_leaf m ks).length / 2 < (b_insert_into_leaf m ks).length := by
        omega
      have hmid_ge : 1 ≤ (b_insert_into_leaf m ks).length / 2 := by omega
      cases hdrop : (b_insert_into_leaf m ks).drop ((b_insert_into_leaf m ks).length / 2) with
      | nil =>
        exfalso
        have hdl := List.length_drop ((b_insert_into_leaf m ks).length / 2) (b_insert_into_leaf m ks)
        rw [hdrop] at hdl
        simp at hdl
        omega
      | cons r0 rrest =>
        have hdecomp :
            (b_insert_into_leaf m ks).take ((b_insert_into_leaf m ks).length / 2)
              ++ r0 :: rrest = b_insert_into_leaf m ks := by
          rw [← hdrop]
          exact List.take_append_drop _ _
        have hsort_dec : List.Pairwise recLt
            ((b_insert_into_leaf m ks).take ((b_insert_into_leaf m ks).length / 2)
              ++ r0 :: rrest) := by
          rw [hdecomp]
          exact hsort2
        obtain ⟨htake_sort, hrest_sort, hcross⟩ := List.pairwise_append.mp hsort_dec
        have hmem_take : ∀ x ∈ (b_insert_into_leaf m ks).take
            ((b_insert_into_leaf m ks).length / 2), x ∈ b_insert_into_leaf m ks := by
          intro x hx
          rw [← hdecomp]
          exact List.mem_append.mpr (Or.inl hx)
        have hmem_drop : ∀ x ∈ r0 :: rrest, x ∈ b_insert_into_leaf m ks := by
          intro x hx
          rw [← hdecomp]
          exact List.mem_append.mpr (Or.inr hx)
        have htklen : ((b_insert_into_leaf m ks).take
            ((b_insert_into_leaf m ks).length / 2)).length
            = (b_insert_into_leaf m ks).length / 2 := by
          rw [List.length_take]
          omega
        have htkne : (b_insert_into_leaf m ks).take
            ((b_insert_into_leaf m ks).length / 2) ≠ [] := by
          intro hnil
          rw [hnil] at htklen
          simp at htklen
          omega
        obtain ⟨x0, hx0⟩ := List.exists_mem_of_ne_nil _ htkne
        have hx0r0 : recLt x0 r0 := hcross x0 hx0 r0 (List.mem_cons_self r0 rrest)
        have hdl := List.length_drop ((b_insert_into_leaf m ks).length / 2)
          (b_insert_into_leaf m ks)
        rw [hdrop] at hdl
        refine ⟨⟨htake_sort, ?_, ?_⟩, ?_, ⟨hrest_sort, ?_, ?_⟩⟩
        · intro x hx
          refine ⟨(hbnd2 x (hmem_take x hx)).1, ubOk_some ?_⟩
          exact hcross x hx r0 (List.mem_cons_self r0 rrest)
        · rw [htklen]
          omega
        · refine ⟨?_, (hbnd2 r0 (hmem_drop r0 (List.mem_cons_self r0 rrest))).2⟩
          intro z hz
          exact lt_of_le_of_lt ((hbnd2 x0 (hmem_take x0 hx0)).1 z hz) hx0r0
        · intro x hx
          refine ⟨?_, (hbnd2 x (hmem_drop x hx)).2⟩
          rcases List.mem_cons.mp hx with rfl | hx2
          · exact fun z hz => le_refl _ |>.trans (le_refl _) |>.trans (by
              simp only [Option.mem_def, Option.some_inj] at hz
              rw [← hz])
          · refine lbOk_some (le_of_lt ?_)
            exact (List.pairwise_cons.mp hrest_sort).1 x hx2
        · have : (r0 :: rrest).length = (b_insert_into_leaf m ks).length
              - (b_insert_into_leaf m ks).length / 2 := by
            rw [← hdl]
          simp only [List.length_cons] at this
          simp only [List.length_cons]
          omega
    · rw [if_neg hsplit]
      exact ⟨hsort2, hbnd2, by omega⟩
  | .inner es, lo, hi, hwf, hm => by
    simp only [BWf] at hwf
    obtain ⟨hsz1, hsz2, hwfe⟩ := hwf
    obtain ⟨hwfe2, hszle1, hszle2⟩ := b_insert_entries_wf ord m hord es lo hi hwfe hm
    simp only [b_insert_aux]
    by_cases hsplit : ord ≤ (b_insert_entries ord m es).sizeE
    · rw [if_pos hsplit]
      have hsz_eq : (b_insert_entries ord m es).sizeE = ord := by omega
      have hmid_lt : (b_insert_entries ord m es).sizeE / 2
          < (b_insert_entries ord m es).sizeE := by omega
      obtain ⟨pre, pk, post, heq, hpre, hpkb, hpost, hszpre, hszpost⟩ :=
        splitAtE_wf ord (b_insert_entries ord m es)
          ((b_insert_entries ord m es).sizeE / 2) lo hi hwfe2 hmid_lt
      rw [heq]
      refine ⟨⟨by omega, by omega, hpre⟩, hpkb, ⟨by omega, by omega, hpost⟩⟩
    · rw [if_neg hsplit]
      exact ⟨by omega, by omega, hwfe2⟩

theorem b_insert_entries_wf (ord : Nat) (m : FileMetadata) (hord : 3 ≤ ord) :
    ∀ (es : BEntries) (lo hi : Option String), BWfE ord lo hi es → inBnd lo hi m.filename →
      BWfE ord lo hi (b_insert_entries ord m es)
        ∧ es.sizeE ≤ (b_insert_entries ord m es).sizeE
        ∧ (b_insert_entries ord m es).sizeE ≤ es.sizeE + 1
  | .lastC c, lo, hi, hwfe, hm => by
    simp only [BWfE] at hwfe
    have hres := b_insert_aux_wf ord m hord c lo hi hwfe hm
    simp only [b_insert_entries]
    cases hcase : b_insert_aux ord m c with
    | one c2 =>
      rw [hcase] at hres
      simp only [BWfRes] at hres
      exact ⟨hres, by simp [BEntries.sizeE], by simp [BEntries.sizeE]⟩
    | split l nk r =>
      rw [hcase] at hres
      simp only [BWfRes] at hres
      obtain ⟨hl, hnkb, hr⟩ := hres
      exact ⟨⟨hnkb, hl, hr⟩, by simp [BEntries.sizeE], by simp [BEntries.sizeE]⟩
  | .cons k c rest, lo, hi, hwfe, hm => by
    simp only [BWfE] at hwfe
    obtain ⟨hkb, hcw, hrest⟩ := hwfe
    simp only [b_insert_entries]
    by_cases hroute : fnLt m.filename k
    · rw [if_pos hroute]
      have hres := b_insert_aux_wf ord m hord c lo (some k) hcw ⟨hm.1, ubOk_some hroute⟩
      cases hcase : b_insert_aux ord m c with
      | one c2 =>
        rw [hcase] at hres
        simp only [BWfRes] at hres
        refine ⟨⟨hkb, hres, hrest⟩, ?_, ?_⟩
        · simp [BEntries.sizeE]
        · simp [BEntries.sizeE]
      | split l nk r =>
        rw [hcase] at hres
        simp only [BWfRes] at hres
        obtain ⟨hl, hnkb, hr⟩ := hres
        have hnk_lt_k : fnLt nk k := ubOk_some_elim hnkb.2
        refine ⟨⟨⟨hnkb.1, ubOk_of_lt hnk_lt_k hkb.2⟩, hl,
          ⟨lbStrict_some hnk_lt_k, hkb.2⟩, hr, hrest⟩, ?_, ?_⟩
        · simp [BEntries.sizeE]
        · simp [BEntries.sizeE]
    · rw [if_neg hroute]
      have hmlb : inBnd (some k) hi m.filename := ⟨lbOk_some (not_lt.mp hroute), hm.2⟩
      obtain ⟨hrest2, hsz1, hsz2⟩ := b_insert_entries_wf ord m hord rest (some k) hi hrest hmlb
      refine ⟨⟨hkb, hcw, hrest2⟩, ?_, ?_⟩
      · simp only [BEntries.sizeE]
        omega
      · simp only [BEntries.sizeE]
        omega

end

/-! ## B+ tree: insertion preserves balance -/

mutual

theorem b_insert_aux_bal (ord : Nat) (m : FileMetadata) :
    ∀ (n : BNode) (d : Nat), BBal d n → BBalRes d (b_insert_aux ord m n)
  | .leaf ks, d, hbal => by
    cases d with
    | zero => simp only [BBal] at hbal
    | succ e =>
      simp only [BBal] at hbal
      subst hbal
      simp only [b_insert_aux]
      split_ifs with hsp
      · cases hdrop : (b_insert_into_leaf m ks).drop
            ((b_insert_into_leaf m ks).length / 2) with
        | nil => exact rfl
        | cons r0 rrest => exact ⟨rfl, rfl⟩
      · exact rfl
  | .inner es, d, hbal => by
    cases d with
    | zero =>
      simp only [BBal] at hbal
    | succ e =>
      simp only [BBal] at hbal
      have hrese := b_insert_entries_bal ord m es e hbal
      simp only [b_insert_aux]
      split_ifs with hsp
      · cases hsplit : (b_insert_entries ord m es).splitAtE
            ((b_insert_entries ord m es).sizeE / 2) with
        | none =>
          simpa only [BBalRes, BBal] using hrese
        | some trip =>
          obtain ⟨pre, pk, post⟩ := trip
          obtain ⟨hp, hq⟩ := splitAtE_bal _ _ _ _ _ _ hrese hsplit
          exact ⟨hp, hq⟩
      · simpa only [BBalRes, BBal] using hrese

theorem b_insert_entries_bal (ord : Nat) (m : FileMetadata) :
    ∀ (es : BEntries) (d : Nat), BBalE d es → BBalE d (b_insert_entries ord m es)
  | .lastC c, d, hbal => by
    have hres := b_insert_aux_bal ord m c d hbal
    simp only [b_insert_entries]
    cases hcase : b_insert_aux ord m c with
    | one c2 =>
      rw [hcase] at hres
      simpa only [BBalRes, BBalE] using hres
    | split l nk r =>
      rw [hcase] at hres
      simp only [BBalRes] at hres
      exact ⟨hres.1, hres.2⟩
  | .cons k c rest, d, hbal => by
    simp only [BBalE] at hbal
    obtain ⟨hbc, hbrest⟩ := hbal
    simp only [b_insert_entries]
    split_ifs with hroute
    · have hres := b_insert_aux_bal ord m c d hbc
      cases hcase : b_insert_aux ord m c with
      | one c2 =>
        rw [hcase] at hres
        simp only [BBalRes] at hres
        exact ⟨hres, hbrest⟩
      | split l nk r =>
        rw [hcase] at hres
        simp only [BBalRes] at hres
        exact ⟨hres.1, hres.2, hbrest⟩
    · exact ⟨hbc, b_insert_entries_bal ord m rest d hbrest⟩

end

/-! ## B+ tree: sortedness from the invariant -/

mutual

theorem bwf_sorted (ord : Nat) :
    ∀ (n : BNode) (lo hi : Option String), BWf ord lo hi n →
      List.Pairwise recLt n.toList ∧ ∀ x ∈ n.toList, inBnd lo hi x.filename
  | .leaf ks, lo, hi, hwf => by
    simp only [BWf] at hwf
    exact ⟨hwf.1, hwf.2.1⟩
  | .inner es, lo, hi, hwf => by
    simp only [BWf] at hwf
    exact bwfe_sorted ord es lo hi hwf.2.2

theorem bwfe_sorted (ord : Nat) :
    ∀ (es : BEntries) (lo hi : Option String), BWfE ord lo hi es →
      List.Pairwise recLt es.toListE ∧ ∀ x ∈ es.toListE, inBnd lo hi x.filename
  | .lastC c, lo, hi, hwfe => by
    simpa only [BEntries.toListE] using bwf_sorted ord c lo hi hwfe
  | .cons k c rest, lo, hi, hwfe => by
    simp only [BWfE] at hwfe
    obtain ⟨hkb, hcw, hrest⟩ := hwfe
    obtain ⟨hs1, hb1⟩ := bwf_sorted ord c lo (some k) hcw
    obtain ⟨hs2, hb2⟩ := bwfe_sorted ord rest (some k) hi hrest
    simp only [BEntries.toListE]
    constructor
    · rw [List.pairwise_append]
      refine ⟨hs1, hs2, ?_⟩
      intro x hx y hy
      exact lt_of_lt_of_le (ubOk_some_elim (hb1 x hx).2) (lbOk_some_elim (hb2 y hy).1)
    · intro x hx
      rcases List.mem_append.mp hx with hx | hx
      · exact ⟨(hb1 x hx).1, ubOk_of_lt (ubOk_some_elim (hb1 x hx).2) hkb.2⟩
      · refine ⟨?_, (hb2 x hx).2⟩
        intro z hz
        exact le_trans (le_of_lt (hkb.1 z hz)) (lbOk_some_elim (hb2 x hx).1)

end

/-! ## B+ tree: build-level invariant -/

/-- Every state reached by a sequence of inserts into a B+ tree of order at
least 3 keeps its order parameter, satisfies the search-tree invariant, and
is balanced with height equal to the root-to-leaf node count. -/
theorem buildB_invariant (ord : Nat) (ms : List FileMetadata) (hord : 3 ≤ ord) :
    (buildB ord ms).order = ord
    ∧ BWf ord none none (buildB ord ms).root
    ∧ BBal (buildB ord ms).height (buildB ord ms).root := by
  induction ms using List.reverseRecOn with
  | nil =>
    refine ⟨rfl, ?_, rfl⟩
    show BWf ord none none (.leaf [])
    refine ⟨by simp, ?_, by simp only [List.length_nil]; omega⟩
    intro k hk
    simp at hk
  | append_singleton ms m ih =>
    obtain ⟨ihord, ihwf, ihbal⟩ := ih
    have hbuild : buildB ord (ms ++ [m]) = (buildB ord ms).insert m := by
      simp [buildB, List.foldl_append]
    rw [hbuild]
    unfold BPlusTree.insert
    rw [ihord]
    have hm : inBnd none none m.filename := ⟨lbOk_none, ubOk_none⟩
    have hres := b_insert_aux_wf ord m hord (buildB ord ms).root none none ihwf hm
    have hbres := b_insert_aux_bal ord m (buildB ord ms).root (buildB ord ms).height ihbal
    cases hcase : b_insert_aux ord m (buildB ord ms).root with
    | one r2 =>
      rw [hcase] at hres hbres
      simp only [BWfRes] at hres
      simp only [BBalRes] at hbres
      dsimp only
      exact ⟨rfl, hres, hbres⟩
    | split l k r =>
      rw [hcase] at hres hbres
      simp only [BWfRes] at hres
      simp only [BBalRes] at hbres
      obtain ⟨hwl, hkb, hwr⟩ := hres
      obtain ⟨hbl, hbr⟩ := hbres
      dsimp only
      refine ⟨rfl, ?_, ?_⟩
      · refine ⟨by simp [BEntries.sizeE], by simp [BEntries.sizeE]; omega, ?_, ?_, ?_⟩
        · exact hkb
        · exact hwl
        · exact hwr
      · exact ⟨hbl, hbr⟩

/-! ## Height counters count nodes, not edges -/

/-- A balanced 2-3 node at node-depth d has d - 1 edges on its root-to-leaf
paths. -/
theorem balT_edge : ∀ {d : Nat} {n : TTNode}, BalT d n → n.edgeHeight + 1 = d := by
  intro d n h
  induction h with
  | l1 => rfl
  | l2 => rfl
  | i2 h0 h1 ih0 ih1 =>
    simp only [TTNode.edgeHeight]
    omega
  | i3 h0 h1 h2 ih0 ih1 ih2 =>
    simp only [TTNode.edgeHeight]
    omega

mutual

/-- A balanced B+ node at node-depth d has d - 1 edges on its root-to-leaf
paths. -/
theorem bbal_edge : ∀ (n : BNode) (d : Nat), BBal d n → n.edgeHeight + 1 = d
  | .leaf ks, d, h => by
    cases d with
    | zero => simp only [BBal] at h
    | succ e =>
      simp only [BBal] at h
      subst h
      rfl
  | .inner es, d, h => by
    cases d with
    | zero => simp only [BBal] at h
    | succ e =>
      simp only [BBal] at h
      have := bbalE_edge es e h
      simp only [BNode.edgeHeight]
      omega

theorem bbalE_edge : ∀ (es : BEntries) (d : Nat), BBalE d es → es.edgeHeightE + 1 = d
  | .lastC c, d, h => by
    simp only [BEntries.edgeHeightE]
    exact bbal_edge c d h
  | .cons k c rest, d, h => by
    simp only [BBalE] at h
    simp only [BEntries.edgeHeightE]
    exact bbalE_edge rest d h.2

end

/-! ## Hash table: bucket decomposition lemmas -/

theorem getD_of_getElem? {α : Type} {l : List α} {i : Nat} {a : α} (d : α)
    (h : l[i]? = some a) : l.getD i d = a := by
  rw [List.getD_eq_getElem?_getD, h]
  rfl

/-- Decompose a flattened bucket array around bucket i. -/
theorem flatten_decomp {α : Type} :
    ∀ (B : List (List α)) (i : Nat) (b : List α), B[i]? = some b →
      B.flatten = (B.take i).flatten ++ b ++ (B.drop (i + 1)).flatten := by
  intro B
  induction B with
  | nil => intro i b h; simp at h
  | cons x xs ih =>
    intro i b h
    cases i with
    | zero =>
      simp only [List.getElem?_cons_zero, Option.some.injEq] at h
      subst h
      simp
    | succ j =>
      simp only [List.getElem?_cons_succ] at h
      simp only [List.take_succ_cons, List.drop_succ_cons, List.flatten_cons, ih j b h]
      simp [List.append_assoc]

/-- Decompose the flattening of a bucket array with bucket i overwritten. -/
theorem flatten_set_decomp {α : Type} :
    ∀ (B : List (List α)) (i : Nat) (nb : List α), i < B.length →
      (B.set i nb).flatten = (B.take i).flatten ++ nb ++ (B.drop (i + 1)).flatten := by
  intro B
  induction B with
  | nil => intro i nb h; simp at h
  | cons x xs ih =>
    intro i nb h
    cases i with
    | zero => simp
    | succ j =>
      have hj : j < xs.length := by
        simp only [List.length_cons] at h
        omega
      simp only [List.set_cons_succ, List.take_succ_cons, List.drop_succ_cons,
        List.flatten_cons, ih j nb hj]
      simp [List.append_assoc]

/-- find? returns the unique element satisfying the predicate. -/
theorem find?_eq_of_unique {α : Type} (p : α → Bool) :
    ∀ (l : List α) (r : α), r ∈ l → p r = true → (∀ x ∈ l, p x = true → x = r) →
      l.find? p = some r := by
  intro l
  induction l with
  | nil => intro r hr _ _; simp at hr
  | cons x xs ih =>
    intro r hr hp huniq
    by_cases hx : p x = true
    · rw [List.find?_cons_of_pos _ hx, huniq x (List.mem_cons_self x xs) hx]
    · rw [List.find?_cons_of_neg _ hx]
      have hrx : r ∈ xs := by
        rcases List.mem_cons.mp hr with heq | hmem
        · subst heq; exact absurd hp hx
        · exact hmem
      exact ih r hrx hp (fun y hy hpy => huniq y (List.mem_cons_of_mem x hy) hpy)

/-! ## Hash table: rehash layout -/

theorem rehash_length (h : String → Nat) (C : Nat) (P : List FileMetadata) :
    (rehash_buckets h C P).length = C := by
  simp [rehash_buckets]

theorem rehash_getElem? (h : String → Nat) {C j : Nat} (P : List FileMetadata) (hj : j < C) :
    (rehash_buckets h C P)[j]? =
      some (P.filter (fun x => decide (hash_idx h C x.filename = j))) := by
  simp [rehash_buckets, List.getElem?_map, List.getElem?_range hj]

theorem rehash_empty (h : String → Nat) (C : Nat) :
    rehash_buckets h C [] = List.replicate C [] := by
  simp only [rehash_buckets, List.filter_nil, List.map_const', List.length_range]

theorem flatten_replicate_nil {α : Type} (n : Nat) :
    (List.replicate n ([] : List α)).flatten = [] := by
  rw [List.flatten_eq_nil_iff]
  intro l hl
  exact (List.mem_replicate.mp hl).2

/-- Appending one record to the rehashed records appends it at the end of the
bucket its hash selects. -/
theorem rehash_snoc (h : String → Nat) (C : Nat) (P : List FileMetadata) (m : FileMetadata)
    (hC : 0 < C) :
    rehash_buckets h C (P ++ [m])
      = (rehash_buckets h C P).set (hash_idx h C m.filename)
          ((P.filter (fun x =>
              decide (hash_idx h C x.filename = hash_idx h C m.filename))) ++ [m]) := by
  have hm : hash_idx h C m.filename < C := Nat.mod_lt _ hC
  apply List.ext_getElem?
  intro j
  by_cases hj : j < C
  · rw [rehash_getElem? h (P ++ [m]) hj, List.getElem?_set]
    by_cases hij : hash_idx h C m.filename = j
    · rw [if_pos hij, if_pos (by rw [rehash_length]; exact hm)]
      subst hij
      simp [List.filter_append]
    · rw [if_neg hij, rehash_getElem? h P hj]
      have : (List.filter (fun x => decide (hash_idx h C x.filename = j)) [m]) = [] := by
        simp [hij]
      simp [List.filter_append, this]
  · rw [List.getElem?_eq_none (by rw [rehash_length]; omega),
      List.getElem?_eq_none (by rw [List.length_set, rehash_length]; omega)]

theorem rehash_placed (h : String → Nat) {C : Nat} (P : List FileMetadata) :
    ∀ i b, (rehash_buckets h C P)[i]? = some b →
      ∀ m ∈ b, hash_idx h C m.filename = i := by
  intro i b hib m hm
  by_cases hi : i < C
  · rw [rehash_getElem? h P hi] at hib
    injection hib with hib
    subst hib
    have := List.of_mem_filter hm
    exact of_decide_eq_true this
  · rw [List.getElem?_eq_none (by rw [rehash_length]; omega)] at hib
    cases hib

/-- Rehashing the records redistributes exactly the given records. -/
theorem rehash_flatten_perm (h : String → Nat) {C : Nat} (hC : 0 < C) :
    ∀ (P : List FileMetadata), (rehash_buckets h C P).flatten.Perm P := by
  intro P
  induction P using List.reverseRecOn with
  | nil =>
    rw [rehash_empty, flatten_replicate_nil]
  | append_singleton P m ih =>
    rw [rehash_snoc h C P m hC]
    have hm : hash_idx h C m.filename < C := Nat.mod_lt _ hC
    have hget := rehash_getElem? h P hm
    have hlen : hash_idx h C m.filename < (rehash_buckets h C P).length := by
      rw [rehash_length]; exact hm
    rw [flatten_set_decomp _ _ _ hlen]
    have hflat := flatten_decomp (rehash_buckets h C P) _ _ hget
    rw [hflat] at ih
    refine List.Perm.trans ?_ (ih.append_right [m])
    rw [List.perm_iff_count]
    intro a
    simp only [List.count_append]
    omega

/-! ## Hash table: the three branches of _insert_no_lock -/

theorem bucket_replace_map (m : FileMetadata) :
    ∀ (l : List FileMetadata),
      (bucket_replace m l).map (fun x => x.filename) = l.map (fun x => x.filename) := by
  intro l
  induction l with
  | nil => rfl
  | cons x xs ih =>
    by_cases hx : x.filename = m.filename
    · simp [bucket_replace, hx]
    · simp [bucket_replace, hx, ih]

theorem bucket_replace_length (m : FileMetadata) (l : List FileMetadata) :
    (bucket_replace m l).length = l.length := by
  have := congrArg List.length (bucket_replace_map m l)
  simpa using this

theorem mem_bucket_replace {m : FileMetadata} :
    ∀ {l : List FileMetadata} {x : FileMetadata}, x ∈ bucket_replace m l → x ∈ l ∨ x = m := by
  intro l
  induction l with
  | nil => intro x hx; simp [bucket_replace] at hx
  | cons y ys ih =>
    intro x hx
    by_cases hy : y.filename = m.filename
    · simp only [bucket_replace, if_pos hy, List.mem_cons] at hx
      rcases hx with hx | hx
      · exact Or.inr hx
      · exact Or.inl (List.mem_cons_of_mem y hx)
    · simp only [bucket_replace, if_neg hy, List.mem_cons] at hx
      rcases hx with hx | hx
      · exact Or.inl (by simp [hx])
      · rcases ih hx with hx2 | hx2
        · exact Or.inl (List.mem_cons_of_mem y hx2)
        · exact Or.inr hx2

/-- The duplicate branch of _insert_no_lock: bucket[i] = metadata; return.
No resize action runs, so the equation holds for any fuel. -/
theorem insert_no_lock_replace (h : String → Nat) (fuel : Nat) (t : HashTableIndex)
    (m : FileMetadata)
    (hdup : (t.buckets.getD (hash_idx h t.capacity m.filename) []).any
        (fun x => decide (x.filename = m.filename)) = true) :
    insert_no_lock h fuel t m
      = { t with buckets := (t.buckets.set (hash_idx h t.capacity m.filename)
            (bucket_replace m (t.buckets.getD (hash_idx h t.capacity m.filename) []))) } := by
  cases fuel with
  | zero =>
    show insert_step h (fun t1 => t1) t m = _
    unfold insert_step
    rw [if_pos hdup]
  | succ f =>
    show insert_step h _ t m = _
    unfold insert_step
    rw [if_pos hdup]

/-- The append branch of _insert_no_lock when the load factor stays within
bounds: bucket.append(metadata); size += 1; no resize. -/
theorem insert_no_lock_append (h : String → Nat) (fuel : Nat) (t : HashTableIndex)
    (m : FileMetadata)
    (hnew : (t.buckets.getD (hash_idx h t.capacity m.filename) []).any
        (fun x => decide (x.filename = m.filename)) = false)
    (hnotrig : ¬ 4 * (t.size + 1) > 3 * t.capacity) :
    insert_no_lock h fuel t m
      = { t with
          buckets := (t.buckets.set (hash_idx h t.capacity m.filename)
            (t.buckets.getD (hash_idx h t.capacity m.filename) [] ++ [m])),
          size := t.size + 1 } := by
  cases fuel with
  | zero =>
    show insert_step h (fun t1 => t1) t m = _
    unfold insert_step
    rw [if_neg (by rw [hnew]; exact Bool.false_ne_true), if_neg hnotrig]
  | succ f =>
    show insert_step h _ t m = _
    unfold insert_step
    rw [if_neg (by rw [hnew]; exact Bool.false_ne_true), if_neg hnotrig]

/-- The append branch of _insert_no_lock when the load factor is exceeded:
the appended state is rebuilt by _resize (double the capacity, fresh empty
buckets, size 0, reinsert every stored record). -/
theorem insert_no_lock_trigger (h : String → Nat) (f : Nat) (t : HashTableIndex)
    (m : FileMetadata)
    (hnew : (t.buckets.getD (hash_idx h t.capacity m.filename) []).any
        (fun x => decide (x.filename = m.filename)) = false)
    (htrig : 4 * (t.size + 1) > 3 * t.capacity) :
    insert_no_lock h (f + 1) t m
      = ((t.buckets.set (hash_idx h t.capacity m.filename)
            (t.buckets.getD (hash_idx h t.capacity m.filename) [] ++ [m])).flatten).foldl
          (insert_no_lock h f)
          { capacity := 2 * t.capacity,
            size := 0,
            buckets := List.replicate (2 * t.capacity) [],
            tag_index := t.tag_index } := by
  show insert_step h _ t m = _
  unfold insert_step
  rw [if_neg (by rw [hnew]; exact Bool.false_ne_true), if_pos htrig]

/-- The reinsert loop of _resize: starting from fresh buckets of capacity C
that already hold the records P in rehash layout, reinserting records L with
globally distinct filenames (and total load within bounds, so no nested
resize can trigger) lands every record in the bucket its new hash selects. -/
theorem rehash_fold (h : String → Nat) (fuel C : Nat) (hC : 0 < C) :
    ∀ (L P : List FileMetadata) (ti : TagIndex),
      ((P ++ L).map (fun x => x.filename)).Nodup →
      4 * (P.length + L.length) ≤ 3 * C →
      L.foldl (insert_no_lock h fuel)
        { capacity := C, size := P.length, buckets := rehash_buckets h C P, tag_index := ti }
        = { capacity := C, size := P.length + L.length,
            buckets := rehash_buckets h C (P ++ L), tag_index := ti } := by
  intro L
  induction L with
  | nil =>
    intro P ti hnd hload
    simp
  | cons m L ih =>
    intro P ti hnd hload
    have hfreshP : ∀ x ∈ P, x.filename ≠ m.filename := by
      rw [List.map_append, List.nodup_append] at hnd
      intro x hx heq
      exact hnd.2.2 (List.mem_map_of_mem _ hx)
        (heq ▸ List.mem_map_of_mem _ (List.mem_cons_self m L))
    have hm : hash_idx h C m.filename < C := Nat.mod_lt _ hC
    have hget : (rehash_buckets h C P).getD (hash_idx h C m.filename) []
        = P.filter (fun x => decide (hash_idx h C x.filename = hash_idx h C m.filename)) :=
      getD_of_getElem? [] (rehash_getElem? h P hm)
    have hnew : ((rehash_buckets h C P).getD (hash_idx h C m.filename) []).any
        (fun x => decide (x.filename = m.filename)) = false := by
      rw [hget, List.any_eq_false]
      intro x hx
      have hxP : x ∈ P := List.mem_of_mem_filter hx
      simp [hfreshP x hxP]
    have hnotrig : ¬ 4 * (P.length + 1) > 3 * C := by
      simp only [List.length_cons] at hload
      omega
    rw [List.foldl_cons,
      insert_no_lock_append h fuel _ m hnew hnotrig]
    show L.foldl (insert_no_lock h fuel)
        { capacity := C, size := P.length + 1,
          buckets := ((rehash_buckets h C P).set (hash_idx h C m.filename)
            ((rehash_buckets h C P).getD (hash_idx h C m.filename) [] ++ [m])),
          tag_index := ti } = _
    rw [hget, ← rehash_snoc h C P m hC]
    have hnd2 : (((P ++ [m]) ++ L).map (fun x => x.filename)).Nodup := by
      rw [List.append_assoc, List.singleton_append]
      exact hnd
    have hload2 : 4 * ((P ++ [m]).length + L.length) ≤ 3 * C := by
      simp only [List.length_append, List.length_cons, List.length_nil] at *
      omega
    rw [show P.length + 1 = (P ++ [m]).length by simp]
    rw [ih (P ++ [m]) ti hnd2 hload2]
    simp only [HashTableIndex.mk.injEq]
    refine ⟨trivial, ?_, ?_, trivial⟩
    · simp only [List.length_append, List.length_cons, List.length_nil]
      omega
    · rw [List.append_assoc, List.singleton_append]

/-- The hash of any filename indexes a real bucket of a well-formed table. -/
theorem ht_bucket_facts (h : String → Nat) {t : HashTableIndex} (hwf : HTWf h t)
    (name : String) :
    hash_idx h t.capacity name < t.buckets.length
    ∧ t.buckets[hash_idx h t.capacity name]?
        = some (t.buckets.getD (hash_idx h t.capacity name) []) := by
  have hcap : 0 < t.capacity := by have := hwf.cap2; omega
  have hi : hash_idx h t.capacity name < t.buckets.length := by
    rw [hwf.blen]
    exact Nat.mod_lt _ hcap
  refine ⟨hi, ?_⟩
  have hgd : t.buckets.getD (hash_idx h t.capacity name) []
      = t.buckets[hash_idx h t.capacity name] := by
    rw [List.getD_eq_getElem?_getD, List.getElem?_eq_getElem hi]
    rfl
  rw [List.getElem?_eq_getElem hi, hgd]

/-- If the target bucket of a well-formed table has no record with m's
filename, then no bucket has one. -/
theorem fresh_of_bucket_fresh (h : String → Nat) {t : HashTableIndex} (hwf : HTWf h t)
    {m : FileMetadata}
    (hnew : (t.buckets.getD (hash_idx h t.capacity m.filename) []).any
        (fun x => decide (x.filename = m.filename)) = false) :
    ∀ r ∈ ht_records t, r.filename ≠ m.filename := by
  intro r hr heq
  obtain ⟨l, hl, hrl⟩ := List.mem_flatten.mp hr
  obtain ⟨j, hj⟩ := List.mem_iff_getElem?.mp hl
  have hplace := hwf.placed j l hj r hrl
  have hbucket : t.buckets.getD (hash_idx h t.capacity m.filename) [] = l := by
    rw [← heq, hplace]
    exact getD_of_getElem? [] hj
  rw [hbucket, List.any_eq_false] at hnew
  exact hnew r hrl (by simp [heq])

/-- Inserting a record whose filename is already stored in its bucket:
the stored record is replaced in place, size is unchanged, no resize runs,
and the state stays well-formed. -/
theorem ht_insert_replace (h : String → Nat) (t : HashTableIndex) (m : FileMetadata)
    (hwf : HTWf h t)
    (hdup : (t.buckets.getD (hash_idx h t.capacity m.filename) []).any
        (fun x => decide (x.filename = m.filename)) = true) :
    (t.insert h m).size = t.size
    ∧ (t.insert h m).capacity = t.capacity
    ∧ (t.insert h m).buckets = (t.buckets.set (hash_idx h t.capacity m.filename)
        (bucket_replace m (t.buckets.getD (hash_idx h t.capacity m.filename) [])))
    ∧ HTWf h (t.insert h m) := by
  obtain ⟨hi, hget⟩ := ht_bucket_facts h hwf m.filename
  have heq : t.insert h m = { t with
      buckets := (t.buckets.set (hash_idx h t.capacity m.filename)
        (bucket_replace m (t.buckets.getD (hash_idx h t.capacity m.filename) []))),
      tag_index := t.tag_index.add_all m } := by
    unfold HashTableIndex.insert
    rw [insert_no_lock_replace h 1 t m hdup]
  rw [heq]
  have hflat := flatten_decomp t.buckets _ _ hget
  have hflat2 := flatten_set_decomp t.buckets (hash_idx h t.capacity m.filename)
    (bucket_replace m (t.buckets.getD (hash_idx h t.capacity m.filename) [])) hi
  refine ⟨rfl, rfl, rfl, ?_, ?_, ?_, ?_, ?_, ?_⟩
  · show (t.buckets.set _ _).length = t.capacity
    rw [List.length_set, hwf.blen]
  · exact hwf.cap2
  · show t.size = (t.buckets.set _ _).flatten.length
    rw [hflat2, hwf.size_eq, hflat]
    simp [bucket_replace_length]
  · show (((t.buckets.set _ _).flatten).map (fun x => x.filename)).Nodup
    rw [hflat2]
    have hnd := hwf.nodups
    rw [hflat] at hnd
    simpa [List.map_append, bucket_replace_map] using hnd
  · intro j bj hbj x hx
    show hash_idx h t.capacity x.filename = j
    rw [List.getElem?_set] at hbj
    by_cases hij : hash_idx h t.capacity m.filename = j
    · rw [if_pos hij, if_pos hi] at hbj
      injection hbj with hbj
      subst hbj
      rcases mem_bucket_replace hx with hx2 | hx2
      · rw [← hij]
        exact hwf.placed _ _ hget x hx2
      · subst hx2
        exact hij
    · rw [if_neg hij] at hbj
      exact hwf.placed j bj hbj x hx
  · show 4 * t.size ≤ 3 * t.capacity
    exact hwf.load

/-- Inserting a record with a fresh filename within load bounds: the record
is appended to its bucket, size grows by one, no resize runs, and the state
stays well-formed. -/
theorem ht_insert_append (h : String → Nat) (t : HashTableIndex) (m : FileMetadata)
    (hwf : HTWf h t)
    (hnew : (t.buckets.getD (hash_idx h t.capacity m.filename) []).any
        (fun x => decide (x.filename = m.filename)) = false)
    (hnotrig : ¬ 4 * (t.size + 1) > 3 * t.capacity) :
    (t.insert h m).size = t.size + 1
    ∧ (t.insert h m).capacity = t.capacity
    ∧ (t.insert h m).buckets = (t.buckets.set (hash_idx h t.capacity m.filename)
        (t.buckets.getD (hash_idx h t.capacity m.filename) [] ++ [m]))
    ∧ (ht_records (t.insert h m)).Perm (ht_records t ++ [m])
    ∧ HTWf h (t.insert h m) := by
  obtain ⟨hi, hget⟩ := ht_bucket_facts h hwf m.filename
  have hfresh := fresh_of_bucket_fresh h hwf hnew
  have heq : t.insert h m = { t with
      buckets := (t.buckets.set (hash_idx h t.capacity m.filename)
        (t.buckets.getD (hash_idx h t.capacity m.filename) [] ++ [m])),
      size := t.size + 1,
      tag_index := t.tag_index.add_all m } := by
    unfold HashTableIndex.insert
    rw [insert_no_lock_append h 1 t m hnew hnotrig]
  rw [heq]
  have hflat := flatten_decomp t.buckets _ _ hget
  have hflat2 := flatten_set_decomp t.buckets (hash_idx h t.capacity m.filename)
    (t.buckets.getD (hash_idx h t.capacity m.filename) [] ++ [m]) hi
  have hperm : ((t.buckets.set (hash_idx h t.capacity m.filename)
      (t.buckets.getD (hash_idx h t.capacity m.filename) [] ++ [m])).flatten).Perm
      (t.buckets.flatten ++ [m]) := by
    rw [hflat2, hflat, List.perm_iff_count]
    intro a
    simp only [List.count_append]
    omega
  refine ⟨rfl, rfl, rfl, hperm, ?_, ?_, ?_, ?_, ?_, ?_⟩
  · show (t.buckets.set _ _).length = t.capacity
    rw [List.length_set, hwf.blen]
  · exact hwf.cap2
  · show t.size + 1 = (t.buckets.set _ _).flatten.length
    rw [hperm.length_eq, List.length_append, hwf.size_eq]
    rfl
  · show (((t.buckets.set _ _).flatten).map (fun x => x.filename)).Nodup
    rw [(hperm.map (fun x => x.filename)).nodup_iff]
    rw [List.map_append, List.nodup_append]
    refine ⟨hwf.nodups, by simp, ?_⟩
    intro a ha hb
    simp only [List.map_cons, List.map_nil, List.mem_cons, List.not_mem_nil, or_false] at hb
    obtain ⟨r, hr, hra⟩ := List.mem_map.mp ha
    exact hfresh r hr (by rw [hra, hb])
  · intro j bj hbj x hx
    show hash_idx h t.capacity x.filename = j
    rw [List.getElem?_set] at hbj
    by_cases hij : hash_idx h t.capacity m.filename = j
    · rw [if_pos hij, if_pos hi] at hbj
      injection hbj with hbj
      subst hbj
      rcases List.mem_append.mp hx with hx2 | hx2
      · rw [← hij]
        exact hwf.placed _ _ hget x hx2
      · rw [List.mem_singleton] at hx2
        subst hx2
        exact hij
    · rw [if_neg hij] at hbj
      exact hwf.placed j bj hbj x hx
  · show 4 * (t.size + 1) ≤ 3 * t.capacity
    omega


/-- Inserting a record with a fresh filename that pushes the load factor over
the threshold: the same insert synchronously doubles the capacity, rebuilds
fresh buckets by rehashing every stored record against the new capacity,
ends with size grown by exactly one, and the state stays well-formed. -/
theorem ht_insert_resize (h : String → Nat) (t : HashTableIndex) (m : FileMetadata)
    (hwf : HTWf h t)
    (hnew : (t.buckets.getD (hash_idx h t.capacity m.filename) []).any
        (fun x => decide (x.filename = m.filename)) = false)
    (htrig : 4 * (t.size + 1) > 3 * t.capacity) :
    (t.insert h m).capacity = 2 * t.capacity
    ∧ (t.insert h m).size = t.size + 1
    ∧ (∃ recs : List FileMetadata, recs.Perm (ht_records t ++ [m])
        ∧ (t.insert h m).buckets = rehash_buckets h (2 * t.capacity) recs)
    ∧ HTWf h (t.insert h m) := by
  obtain ⟨hi, hget⟩ := ht_bucket_facts h hwf m.filename
  have hfresh := fresh_of_bucket_fresh h hwf hnew
  have hflat := flatten_decomp t.buckets _ _ hget
  have hflat2 := flatten_set_decomp t.buckets (hash_idx h t.capacity m.filename)
    (t.buckets.getD (hash_idx h t.capacity m.filename) [] ++ [m]) hi
  have hperm : ((t.buckets.set (hash_idx h t.capacity m.filename)
      (t.buckets.getD (hash_idx h t.capacity m.filename) [] ++ [m])).flatten).Perm
      (t.buckets.flatten ++ [m]) := by
    rw [hflat2, hflat, List.perm_iff_count]
    intro a
    simp only [List.count_append]
    omega
  have hndF : ((((t.buckets.set (hash_idx h t.capacity m.filename)
      (t.buckets.getD (hash_idx h t.capacity m.filename) [] ++ [m])).flatten).map
        (fun x => x.filename))).Nodup := by
    rw [(hperm.map (fun x => x.filename)).nodup_iff]
    rw [List.map_append, List.nodup_append]
    refine ⟨hwf.nodups, by simp, ?_⟩
    intro a ha hb
    simp only [List.map_cons, List.map_nil, List.mem_cons, List.not_mem_nil, or_false] at hb
    obtain ⟨r, hr, hra⟩ := List.mem_map.mp ha
    exact hfresh r hr (by rw [hra, hb])
  have hlenF : ((t.buckets.set (hash_idx h t.capacity m.filename)
      (t.buckets.getD (hash_idx h t.capacity m.filename) [] ++ [m])).flatten).length
      = t.size + 1 := by
    rw [hperm.length_eq, List.length_append, hwf.size_eq]
    rfl
  have hC2 : 0 < 2 * t.capacity := by
    have := hwf.cap2
    omega
  have hloadF : 4 * ((t.buckets.set (hash_idx h t.capacity m.filename)
      (t.buckets.getD (hash_idx h t.capacity m.filename) [] ++ [m])).flatten).length
      ≤ 3 * (2 * t.capacity) := by
    rw [hlenF]
    have := hwf.load
    have := hwf.cap2
    omega
  have heq : t.insert h m
      = { capacity := 2 * t.capacity,
          size := ((t.buckets.set (hash_idx h t.capacity m.filename)
            (t.buckets.getD (hash_idx h t.capacity m.filename) [] ++ [m])).flatten).length,
          buckets := rehash_buckets h (2 * t.capacity)
            ((t.buckets.set (hash_idx h t.capacity m.filename)
              (t.buckets.getD (hash_idx h t.capacity m.filename) [] ++ [m])).flatten),
          tag_index := t.tag_index.add_all m } := by
    unfold HashTableIndex.insert
    rw [insert_no_lock_trigger h 0 t m hnew htrig]
    have hfold := rehash_fold h 0 (2 * t.capacity) hC2
      ((t.buckets.set (hash_idx h t.capacity m.filename)
        (t.buckets.getD (hash_idx h t.capacity m.filename) [] ++ [m])).flatten)
      [] t.tag_index (by simpa using hndF) (by simpa using hloadF)
    simp only [List.length_nil, List.nil_append, rehash_empty, Nat.zero_add] at hfold
    rw [hfold]
  rw [heq]
  refine ⟨rfl, hlenF, ?_, ?_⟩
  · exact ⟨(t.buckets.set (hash_idx h t.capacity m.filename)
      (t.buckets.getD (hash_idx h t.capacity m.filename) [] ++ [m])).flatten, hperm, rfl⟩
  · refine ⟨?_, ?_, ?_, ?_, ?_, ?_⟩
    · show (rehash_buckets h (2 * t.capacity) _).length = 2 * t.capacity
      rw [rehash_length]
    · show 2 ≤ 2 * t.capacity
      have := hwf.cap2
      omega
    · show _ = (rehash_buckets h (2 * t.capacity) _).flatten.length
      exact ((rehash_flatten_perm h hC2 _).length_eq).symm
    · show (((rehash_buckets h (2 * t.capacity) _).flatten).map (fun x => x.filename)).Nodup
      rw [((rehash_flatten_perm h hC2 _).map (fun x => x.filename)).nodup_iff]
      exact hndF
    · intro j bj hbj x hx
      show hash_idx h (2 * t.capacity) x.filename = j
      exact rehash_placed h _ j bj hbj x hx
    · show 4 * _ ≤ 3 * (2 * t.capacity)
      exact hloadF

/-- HashTableIndex.insert preserves well-formedness. -/
theorem ht_insert_wf (h : String → Nat) (t : HashTableIndex) (m : FileMetadata)
    (hwf : HTWf h t) : HTWf h (t.insert h m) := by
  by_cases hdup : (t.buckets.getD (hash_idx h t.capacity m.filename) []).any
      (fun x => decide (x.filename = m.filename)) = true
  · exact (ht_insert_replace h t m hwf hdup).2.2.2
  · rw [Bool.not_eq_true] at hdup
    by_cases htrig : 4 * (t.size + 1) > 3 * t.capacity
    · exact (ht_insert_resize h t m hwf hdup htrig).2.2.2
    · exact (ht_insert_append h t m hwf hdup htrig).2.2.2.2

/-- The empty table of any capacity at least 2 is well-formed. -/
theorem htwf_init (h : String → Nat) (cap : Nat) (hcap : 2 ≤ cap) :
    HTWf h (HashTableIndex.init cap) := by
  refine ⟨?_, hcap, ?_, ?_, ?_, ?_⟩
  · show (List.replicate cap ([] : List FileMetadata)).length = cap
    rw [List.length_replicate]
  · show 0 = (List.replicate cap ([] : List FileMetadata)).flatten.length
    rw [flatten_replicate_nil]
    rfl
  · show (((List.replicate cap ([] : List FileMetadata)).flatten).map _).Nodup
    rw [flatten_replicate_nil]
    exact List.nodup_nil
  · intro j bj hbj x hx
    have hmem : bj ∈ List.replicate cap ([] : List FileMetadata) :=
      List.getElem?_mem hbj
    rw [(List.mem_replicate.mp hmem).2] at hx
    cases hx
  · show 4 * 0 ≤ 3 * cap
    omega

/-- Every state reached by a sequence of inserts from an initial capacity of
at least 2 is well-formed. -/
theorem buildHT_wf (h : String → Nat) (cap : Nat) (ms : List FileMetadata)
    (hcap : 2 ≤ cap) : HTWf h (buildHT h cap ms) :=
  foldl_preserve (fun t m hwf => ht_insert_wf h t m hwf) ms _ (htwf_init h cap hcap)

/-- In a well-formed table every stored record is found by its filename. -/
theorem ht_search_mem (h : String → Nat) {t : HashTableIndex} (hwf : HTWf h t) :
    ∀ r ∈ ht_records t, t.search_by_filename h r.filename = some r := by
  intro r hr
  obtain ⟨l, hl, hrl⟩ := List.mem_flatten.mp hr
  obtain ⟨j, hj⟩ := List.mem_iff_getElem?.mp hl
  have hhash := hwf.placed j l hj r hrl
  unfold HashTableIndex.search_by_filename
  have hbucket : t.buckets.getD (hash_idx h t.capacity r.filename) [] = l := by
    rw [hhash]
    exact getD_of_getElem? [] hj
  rw [hbucket]
  refine find?_eq_of_unique _ l r hrl (by simp) ?_
  intro x hx hpx
  have hxmem : x ∈ ht_records t := List.mem_flatten.mpr ⟨l, hl, hx⟩
  refine List.inj_on_of_nodup_map hwf.nodups hxmem hr ?_
  exact of_decide_eq_true hpx

/-! ## list_files ordering -/

/-- A weakly sorted run of records with pairwise-distinct filenames is
strictly sorted. -/
theorem pairwise_lt_of_le_of_nodup {l : List FileMetadata}
    (hle : l.Pairwise recLe) (hnd : (l.map (fun x => x.filename)).Nodup) :
    l.Pairwise recLt := by
  have hnd2 : List.Pairwise (fun a b : String => a ≠ b) (l.map (fun x => x.filename)) := hnd
  have hne := List.pairwise_map.mp hnd2
  exact (hle.and hne).imp (fun hab => lt_of_le_of_ne hab.1 (fname_ne_data hab.2))

/-- list_files('asc') on a well-formed hash table: the stable sort emits the
stored records strictly increasing by filename. -/
theorem ht_list_files_asc (h : String → Nat) {t : HashTableIndex} (hwf : HTWf h t) :
    (t.list_files "asc").Pairwise recLt ∧ (t.list_files "asc").Perm (ht_records t) := by
  unfold HashTableIndex.list_files
  rw [if_neg (by simp)]
  have hperm := List.mergeSort_perm t.buckets.flatten
    (fun a b => decide (fnLe a.filename b.filename))
  have hsorted := @List.sorted_mergeSort FileMetadata
    (fun a b => decide (fnLe a.filename b.filename))
    (fun a b c hab hbc => by
      simp only [decide_eq_true_eq] at *
      exact le_trans hab hbc)
    (fun a b => by
      simp only [Bool.or_eq_true, decide_eq_true_eq]
      exact le_total a.filename.data b.filename.data)
    t.buckets.flatten
  have hle : (t.buckets.flatten.mergeSort
      (fun a b => decide (fnLe a.filename b.filename))).Pairwise recLe :=
    hsorted.imp (fun hab => of_decide_eq_true hab)
  have hnd : ((t.buckets.flatten.mergeSort
      (fun a b => decide (fnLe a.filename b.filename))).map
        (fun x => x.filename)).Nodup :=
    ((hperm.map (fun x => x.filename)).nodup_iff).mpr hwf.nodups
  exact ⟨pairwise_lt_of_le_of_nodup hle hnd, hperm⟩

/-- list_files('desc') on a well-formed hash table is the exact reverse of
list_files('asc'): both are strictly sorted by the flipped order and list the
same records. -/
theorem ht_list_files_desc (h : String → Nat) {t : HashTableIndex} (hwf : HTWf h t) :
    t.list_files "desc" = (t.list_files "asc").reverse := by
  obtain ⟨hasc, hascperm⟩ := ht_list_files_asc h hwf
  have hdperm : (t.list_files "desc").Perm ((t.list_files "asc").reverse) := by
    unfold HashTableIndex.list_files
    rw [if_pos rfl, if_neg (by simp)]
    exact (List.mergeSort_perm _ _).trans
      ((List.mergeSort_perm _ _).symm.trans (List.reverse_perm _).symm)
  have hdsorted : (t.list_files "desc").Pairwise (fun a b => recLt b a) := by
    unfold HashTableIndex.list_files
    rw [if_pos rfl]
    have hsorted := @List.sorted_mergeSort FileMetadata
      (fun a b => decide (fnLe b.filename a.filename))
      (fun a b c hab hbc => by
        simp only [decide_eq_true_eq] at *
        exact le_trans hbc hab)
      (fun a b => by
        simp only [Bool.or_eq_true, decide_eq_true_eq]
        exact le_total b.filename.data a.filename.data)
      t.buckets.flatten
    have hperm := List.mergeSort_perm t.buckets.flatten
      (fun a b => decide (fnLe b.filename a.filename))
    have hnd : ((t.buckets.flatten.mergeSort
        (fun a b => decide (fnLe b.filename a.filename))).map
          (fun x => x.filename)).Nodup :=
      ((hperm.map (fun x => x.filename)).nodup_iff).mpr hwf.nodups
    have hnd2 : List.Pairwise (fun a b : String => a ≠ b)
        ((t.buckets.flatten.mergeSort
          (fun a b => decide (fnLe b.filename a.filename))).map
            (fun x => x.filename)) := hnd
    have hne := List.pairwise_map.mp hnd2
    have hge : (t.buckets.flatten.mergeSort
        (fun a b => decide (fnLe b.filename a.filename))).Pairwise
          (fun a b => recLe b a) :=
      hsorted.imp (fun hab => of_decide_eq_true hab)
    exact (hge.and hne).imp
      (fun hab => lt_of_le_of_ne hab.1 (fname_ne_data (Ne.symm hab.2)))
  have hrsorted : ((t.list_files "asc").reverse).Pairwise (fun a b => recLt b a) :=
    List.pairwise_reverse.mpr hasc
  haveI : IsAntisymm FileMetadata (fun a b => recLt b a) :=
    ⟨fun a b h1 h2 => absurd h1 (lt_asymm h2)⟩
  exact List.eq_of_perm_of_sorted hdperm hdsorted hrsorted

/-- list_files on the 2-3 tree: 'asc' is the in-order traversal and 'desc'
is its exact reverse, for every state. -/
theorem tt_list_files_eq (t : TwoThreeTree) :
    t.list_files "asc" = t.inorder
    ∧ t.list_files "desc" = (t.list_files "asc").reverse := by
  unfold TwoThreeTree.list_files TwoThreeTree.inorder
  rw [if_pos rfl, if_neg (by simp)]
  exact ⟨rfl, rfl⟩

/-- list_files on the B+ tree: 'asc' walks the leaf chain in order and
'desc' is its exact reverse, for every state. -/
theorem b_list_files_eq (t : BPlusTree) :
    t.list_files "asc" = t.root.toList
    ∧ t.list_files "desc" = (t.list_files "asc").reverse := by
  unfold BPlusTree.list_files
  rw [if_pos rfl, if_neg (by simp)]
  exact ⟨rfl, rfl⟩

/-! ## Height across one insert -/

/-- TwoThreeTree.insert changes height exactly on the first insert (0 → 1)
or when the root splits (+1). -/
theorem tt_insert_height (t : TwoThreeTree) (m : FileMetadata) :
    (t.insert m).height
      = match t.root with
        | none => 1
        | some _ => t.height + (if t.root_splits m then 1 else 0) := by
  unfold TwoThreeTree.insert TwoThreeTree.root_splits
  cases hr : t.root with
  | none => rfl
  | some r =>
    dsimp only
    cases hres : tt_insert_helper r m with
    | stay r2 => simp
    | up l k rr => simp

/-- BPlusTree.insert increments height exactly when the root splits. -/
theorem b_insert_height (t : BPlusTree) (m : FileMetadata) :
    (t.insert m).height = t.height + (if t.root_splits m then 1 else 0) := by
  unfold BPlusTree.insert BPlusTree.root_splits
  cases hres : b_insert_aux t.order m t.root with
  | one r => simp
  | split l k r => simp

/-! # The claims -/

/-- C1: the spec says a B+ tree insert of an already-stored filename
replaces the record, triggers no split, and leaves get_size() unchanged, so
get_size() counts distinct filenames.  The replacement and no-split parts
hold, but BPlusTree.insert runs self.size += 1 unconditionally (line 57)
even when _insert_into_leaf replaced an existing record: after inserting
"a.txt" twice, one record is stored yet get_size() = 2, not 1. -/
theorem bplus_duplicate_insert_size_bug :
    ((buildB 4 [mkRec "a.txt" [], mkRec "a.txt" ["x"]]).root.toList
        = [mkRec "a.txt" ["x"]])
    ∧ (buildB 4 [mkRec "a.txt" [], mkRec "a.txt" ["x"]]).height = 1
    ∧ (buildB 4 [mkRec "a.txt" [], mkRec "a.txt" ["x"]]).size = 2 := by
  exact ⟨rfl, rfl, rfl⟩

/-- C3: TwoThreeTree.insert performs no duplicate check during descent:
every insert adds its record and bumps size, so after n inserts get_size()
is n regardless of duplicate filenames, and list_files emits every inserted
occurrence (re-inserting an existing filename stores a second occurrence). -/
theorem tt_insert_no_duplicate_check (ms : List FileMetadata) :
    (buildTT ms).size = ms.length
    ∧ ((buildTT ms).list_files "asc").Perm ms := by
  obtain ⟨hsz, hperm, _⟩ := buildTT_invariant ms
  refine ⟨hsz, ?_⟩
  rw [(tt_list_files_eq (buildTT ms)).1]
  exact hperm

/-- C6 counterexample: a freshly created B+ tree is a reachable state whose
root is a single childless leaf node; the claim says its get_height() is the
root-to-leaf edge count 0, but the code initialises self.height = 1. -/
theorem bplus_init_height_counterexample :
    (buildB 4 []).root = BNode.leaf []
    ∧ (buildB 4 []).root.edgeHeight = 0
    ∧ (buildB 4 []).height = 1 := by
  exact ⟨rfl, rfl, rfl⟩

/-- C6 (amended): on every reachable state, get_height() is the number of
NODES on a root-to-leaf path (the edge count plus one) for every nonempty
tree — not the edge count; the 2-3 tree additionally reports height 0 for
the empty tree. -/
theorem tree_height_node_count (ord : Nat) (ms : List FileMetadata) (hord : 3 ≤ ord) :
    (buildB ord ms).root.edgeHeight + 1 = (buildB ord ms).height
    ∧ (∀ r, (buildTT ms).root = some r → r.edgeHeight + 1 = (buildTT ms).height)
    ∧ ((buildTT ms).root = none → (buildTT ms).height = 0) := by
  refine ⟨?_, ?_, ?_⟩
  · exact bbal_edge _ _ (buildB_invariant ord ms hord).2.2
  · intro r hr
    have h3 := (buildTT_invariant ms).2.2
    rw [hr] at h3
    exact balT_edge h3.2
  · intro hr
    have h3 := (buildTT_invariant ms).2.2
    rw [hr] at h3
    exact h3.1

theorem tree_height_node_count_witness :
    (buildB 3 []).root.edgeHeight + 1 = (buildB 3 []).height :=
  (tree_height_node_count 3 [] (by omega)).1

/-- C7 counterexample: the first insert into an empty 2-3 tree raises
get_height() from 0 to 1, yet no root node splits (there is no node at
all), contradicting that height increases only on a root split. -/
theorem tt_first_insert_height_counterexample :
    ((buildTT []).insert (mkRec "a.txt" [])).height = 1
    ∧ (buildTT []).height = 0
    ∧ (buildTT []).root_splits (mkRec "a.txt" []) = false := by
  exact ⟨rfl, rfl, rfl⟩

/-- C7 (amended): over every insert, get_height() never decreases and grows
by at most one; for the B+ tree it grows exactly when the root splits, and
for the 2-3 tree exactly when the root splits or when the tree was empty
(the first insert sets height 0 → 1 without any split). -/
theorem height_monotone_root_split (ms : List FileMetadata) (m : FileMetadata) (ord : Nat) :
    ((buildTT ms).height ≤ ((buildTT ms).insert m).height
      ∧ ((buildTT ms).insert m).height ≤ (buildTT ms).height + 1
      ∧ (((buildTT ms).insert m).height = (buildTT ms).height + 1
          ↔ ((buildTT ms).root_splits m = true ∨ (buildTT ms).root = none)))
    ∧ ((buildB ord ms).height ≤ ((buildB ord ms).insert m).height
      ∧ ((buildB ord ms).insert m).height ≤ (buildB ord ms).height + 1
      ∧ (((buildB ord ms).insert m).height = (buildB ord ms).height + 1
          ↔ (buildB ord ms).root_splits m = true)) := by
  constructor
  · have hht := tt_insert_height (buildTT ms) m
    cases hroot : (buildTT ms).root with
    | none =>
      rw [hroot] at hht
      dsimp only at hht
      have h0 : (buildTT ms).height = 0 := by
        have h3 := (buildTT_invariant ms).2.2
        rw [hroot] at h3
        exact h3.1
      rw [hht, h0]
      refine ⟨by omega, by omega, ?_⟩
      exact ⟨fun _ => Or.inr rfl, fun _ => rfl⟩
    | some r =>
      rw [hroot] at hht
      dsimp only at hht
      by_cases hs : (buildTT ms).root_splits m = true
      · rw [if_pos hs] at hht
        refine ⟨by omega, by omega, ?_⟩
        exact ⟨fun _ => Or.inl hs, fun _ => hht⟩
      · rw [if_neg hs] at hht
        refine ⟨by omega, by omega, ?_⟩
        constructor
        · intro hcontra
          exfalso
          omega
        · rintro (hsp | hnone)
          · exact absurd hsp hs
          · cases hnone
  · have hb := b_insert_height (buildB ord ms) m
    by_cases hs : (buildB ord ms).root_splits m = true
    · rw [if_pos hs] at hb
      exact ⟨by omega, by omega, fun _ => hs, fun _ => hb⟩
    · rw [if_neg hs] at hb
      refine ⟨by omega, by omega, ?_, ?_⟩
      · intro hcontra
        exfalso
        omega
      · intro hsp
        exact absurd hsp hs

/-- C8: tag completeness and the empty default, identical in every backend:
a record inserted with tag t is in search_by_tag(t), and a tag attached to
no inserted record yields the empty list (dict.get with default, no error). -/
theorem search_by_tag_complete (h : String → Nat) (cap ord : Nat)
    (ms : List FileMetadata) (tag : String) :
    (∀ m ∈ ms, tag ∈ m.tags →
      m ∈ (buildHT h cap ms).search_by_tag tag
      ∧ m ∈ (buildTT ms).search_by_tag tag
      ∧ m ∈ (buildB ord ms).search_by_tag tag)
    ∧ ((∀ m ∈ ms, tag ∉ m.tags) →
      (buildHT h cap ms).search_by_tag tag = []
      ∧ (buildTT ms).search_by_tag tag = []
      ∧ (buildB ord ms).search_by_tag tag = []) := by
  have h1 : (buildHT h cap ms).search_by_tag tag = tagList ms tag := by
    show (buildHT h cap ms).tag_index.get_default tag = _
    rw [buildHT_tag_index, get_default_tag_fold]
  have h2 : (buildTT ms).search_by_tag tag = tagList ms tag := by
    show (buildTT ms).tag_index.get_default tag = _
    rw [buildTT_tag_index, get_default_tag_fold]
  have h3 : (buildB ord ms).search_by_tag tag = tagList ms tag := by
    show (buildB ord ms).tag_index.get_default tag = _
    rw [buildB_tag_index, get_default_tag_fold]
  constructor
  · intro m hm ht
    rw [h1, h2, h3]
    have := mem_tagList_of_mem ms m tag hm ht
    exact ⟨this, this, this⟩
  · intro habs
    rw [h1, h2, h3, tagList_eq_nil ms tag habs]
    exact ⟨rfl, rfl, rfl⟩

/-- C10: search_by_tag is read-only in every backend: as a state
transformer it returns the state unchanged (the lookup is dict.get with a
default, so no defaultdict auto-insertion happens), and the keys of the tag
index after any build are exactly the tags of inserted records — a queried
absent tag never appears as a key. -/
theorem search_by_tag_readonly (h : String → Nat) (cap ord : Nat)
    (ms : List FileMetadata) (tag : String) :
    ((buildHT h cap ms).search_by_tag_run tag
        = ((buildHT h cap ms).search_by_tag tag, buildHT h cap ms))
    ∧ ((buildTT ms).search_by_tag_run tag
        = ((buildTT ms).search_by_tag tag, buildTT ms))
    ∧ ((buildB ord ms).search_by_tag_run tag
        = ((buildB ord ms).search_by_tag tag, buildB ord ms))
    ∧ (tag ∈ (buildHT h cap ms).tag_index.keysOf ↔ ∃ m ∈ ms, tag ∈ m.tags)
    ∧ (tag ∈ (buildTT ms).tag_index.keysOf ↔ ∃ m ∈ ms, tag ∈ m.tags)
    ∧ (tag ∈ (buildB ord ms).tag_index.keysOf ↔ ∃ m ∈ ms, tag ∈ m.tags) := by
  refine ⟨rfl, rfl, rfl, ?_, ?_, ?_⟩
  · rw [buildHT_tag_index]
    exact keysOf_tag_fold ms tag
  · rw [buildTT_tag_index]
    exact keysOf_tag_fold ms tag
  · rw [buildB_tag_index]
    exact keysOf_tag_fold ms tag

/-- C2: on every well-formed (reachable) hash-table state, inserting a
record whose filename is already stored in its bucket replaces the stored
record in place — bucket rewritten by the first-match replacement, size and
capacity unchanged, no resize; inserting a record with a filename not yet
stored appends it (the stored records grow by exactly that record) and
increments size by exactly one. -/
theorem ht_insert_replace_or_append (h : String → Nat) (t : HashTableIndex)
    (m : FileMetadata) (hwf : HTWf h t) :
    ((∃ r ∈ t.buckets.getD (hash_idx h t.capacity m.filename) [],
        r.filename = m.filename) →
      (t.insert h m).size = t.size
      ∧ (t.insert h m).capacity = t.capacity
      ∧ (t.insert h m).buckets = (t.buckets.set (hash_idx h t.capacity m.filename)
          (bucket_replace m (t.buckets.getD (hash_idx h t.capacity m.filename) []))))
    ∧ ((∀ r ∈ ht_records t, r.filename ≠ m.filename) →
      (t.insert h m).size = t.size + 1
      ∧ (ht_records (t.insert h m)).Perm (ht_records t ++ [m])) := by
  obtain ⟨hi, hget⟩ := ht_bucket_facts h hwf m.filename
  constructor
  · intro hex
    have hdup : (t.buckets.getD (hash_idx h t.capacity m.filename) []).any
        (fun x => decide (x.filename = m.filename)) = true := by
      rw [List.any_eq_true]
      obtain ⟨r, hr, he⟩ := hex
      exact ⟨r, hr, by simp [he]⟩
    obtain ⟨h1, h2, h3, _⟩ := ht_insert_replace h t m hwf hdup
    exact ⟨h1, h2, h3⟩
  · intro hfresh
    have hnew : (t.buckets.getD (hash_idx h t.capacity m.filename) []).any
        (fun x => decide (x.filename = m.filename)) = false := by
      rw [List.any_eq_false]
      intro x hx
      have hxr : x ∈ ht_records t :=
        List.mem_flatten.mpr ⟨_, List.getElem?_mem hget, hx⟩
      simp [hfresh x hxr]
    by_cases htrig : 4 * (t.size + 1) > 3 * t.capacity
    · obtain ⟨_, hsz, ⟨recs, hperm, hbuck⟩, _⟩ := ht_insert_resize h t m hwf hnew htrig
      refine ⟨hsz, ?_⟩
      have h0 : 0 < 2 * t.capacity := by
        have := hwf.cap2
        omega
      show ((t.insert h m).buckets.flatten).Perm _
      rw [hbuck]
      exact (rehash_flatten_perm h h0 recs).trans hperm
    · obtain ⟨h1, _, _, h4, _⟩ := ht_insert_append h t m hwf hnew htrig
      exact ⟨h1, h4⟩

theorem ht_insert_replace_or_append_witness :
    ((buildHT hSum 4 [mkRec "a.txt" []]).insert hSum (mkRec "b.txt" [])).size
      = (buildHT hSum 4 [mkRec "a.txt" []]).size + 1 := by
  have happ := ht_insert_replace_or_append hSum (buildHT hSum 4 [mkRec "a.txt" []])
    (mkRec "b.txt" []) (buildHT_wf hSum 4 [mkRec "a.txt" []] (by omega))
  exact (happ.2 (by decide)).1

/-- C5: on a well-formed (reachable) hash-table state, when the insert of a
record with a fresh filename pushes size over the load factor, that same
insert doubles the capacity, rebuilds fresh buckets by rehashing every
stored record against the doubled capacity, ends with size exactly one
larger (the resize itself changes no record and no count), and every
previously stored record is still returned by search_by_filename. -/
theorem ht_resize_on_threshold (h : String → Nat) (t : HashTableIndex)
    (m : FileMetadata) (hwf : HTWf h t)
    (hfresh : ∀ r ∈ ht_records t, r.filename ≠ m.filename)
    (htrig : 4 * (t.size + 1) > 3 * t.capacity) :
    (t.insert h m).capacity = 2 * t.capacity
    ∧ (t.insert h m).size = t.size + 1
    ∧ (∃ recs : List FileMetadata, recs.Perm (ht_records t ++ [m])
        ∧ (t.insert h m).buckets = rehash_buckets h (2 * t.capacity) recs)
    ∧ (∀ r ∈ ht_records t,
        (t.insert h m).search_by_filename h r.filename = some r) := by
  obtain ⟨hi, hget⟩ := ht_bucket_facts h hwf m.filename
  have hnew : (t.buckets.getD (hash_idx h t.capacity m.filename) []).any
      (fun x => decide (x.filename = m.filename)) = false := by
    rw [List.any_eq_false]
    intro x hx
    have hxr : x ∈ ht_records t :=
      List.mem_flatten.mpr ⟨_, List.getElem?_mem hget, hx⟩
    simp [hfresh x hxr]
  obtain ⟨hcap, hsz, hex, hwf2⟩ := ht_insert_resize h t m hwf hnew htrig
  refine ⟨hcap, hsz, hex, ?_⟩
  intro r hr
  apply ht_search_mem h hwf2
  obtain ⟨recs, hperm, hbuck⟩ := hex
  have h0 : 0 < 2 * t.capacity := by
    have := hwf.cap2
    omega
  have hrec : (ht_records (t.insert h m)).Perm (ht_records t ++ [m]) := by
    show ((t.insert h m).buckets.flatten).Perm _
    rw [hbuck]
    exact (rehash_flatten_perm h h0 recs).trans hperm
  exact hrec.symm.subset (List.mem_append_left [m] hr)

theorem ht_resize_on_threshold_witness :
    ((buildHT hSum 2 [mkRec "a.txt" []]).insert hSum (mkRec "b.txt" [])).capacity
      = 2 * (buildHT hSum 2 [mkRec "a.txt" []]).capacity := by
  have hres := ht_resize_on_threshold hSum (buildHT hSum 2 [mkRec "a.txt" []])
    (mkRec "b.txt" []) (buildHT_wf hSum 2 [mkRec "a.txt" []] (by omega))
    (by decide) (by decide)
  exact hres.1

/-- C4 counterexample: inserting the same filename twice is a reachable
2-3 tree state; list_files('asc') then emits both occurrences, so its
output is not strictly increasing by filename. -/
theorem tt_list_files_duplicates_not_strict :
    ¬ (((buildTT [mkRec "a.txt" [], mkRec "a.txt" []]).list_files "asc").Pairwise
        recLt) := by
  intro hp
  have heq : (buildTT [mkRec "a.txt" [], mkRec "a.txt" []]).list_files "asc"
      = [mkRec "a.txt" [], mkRec "a.txt" []] := by decide
  rw [heq] at hp
  have := (List.pairwise_cons.mp hp).1 (mkRec "a.txt" []) (by simp)
  exact absurd this (lt_irrefl _)

/-- C4 (amended): for every backend and every state reached by inserting
records with pairwise-distinct filenames, list_files('asc') lists the
stored records strictly increasing by filename, and list_files('desc') is
its exact reverse.  (The distinctness proviso matters only for the 2-3
tree, which stores duplicate filenames twice — see the counterexample; the
hash table and B+ tree replace duplicates, so for them it is vacuous.) -/
theorem list_files_sorted_of_distinct (h : String → Nat) (cap ord : Nat)
    (ms : List FileMetadata) (hcap : 2 ≤ cap)
    (hnd : (ms.map (fun x => x.filename)).Nodup) (hord : 3 ≤ ord) :
    (((buildHT h cap ms).list_files "asc").Pairwise recLt
      ∧ (buildHT h cap ms).list_files "desc"
          = ((buildHT h cap ms).list_files "asc").reverse)
    ∧ (((buildTT ms).list_files "asc").Pairwise recLt
      ∧ (buildTT ms).list_files "desc" = ((buildTT ms).list_files "asc").reverse)
    ∧ (((buildB ord ms).list_files "asc").Pairwise recLt
      ∧ (buildB ord ms).list_files "desc"
          = ((buildB ord ms).list_files "asc").reverse) := by
  refine ⟨⟨?_, ?_⟩, ⟨?_, ?_⟩, ⟨?_, ?_⟩⟩
  · exact (ht_list_files_asc h (buildHT_wf h cap ms hcap)).1
  · exact ht_list_files_desc h (buildHT_wf h cap ms hcap)
  · rw [(tt_list_files_eq (buildTT ms)).1]
    have hw := buildTT_wf ms hnd
    unfold TwoThreeTree.inorder
    cases hroot : (buildTT ms).root with
    | none => exact List.Pairwise.nil
    | some r =>
      rw [hroot] at hw
      exact (wfT_sorted hw).1
  · exact (tt_list_files_eq (buildTT ms)).2
  · rw [(b_list_files_eq (buildB ord ms)).1]
    exact (bwf_sorted ord _ none none (buildB_invariant ord ms hord).2.1).1
  · exact (b_list_files_eq (buildB ord ms)).2

theorem list_files_sorted_of_distinct_witness :
    ((buildTT [mkRec "b.txt" [], mkRec "a.txt" []]).list_files "asc").Pairwise
      recLt := by
  have hs := list_files_sorted_of_distinct hSum 2 3
    [mkRec "b.txt" [], mkRec "a.txt" []] (by omega) (by decide) (by omega)
  exact hs.2.1.1
